import Mathlib

/-!
Verification model of the `storage` package of aspacca/keyvaluestorage.

Modelling conventions:
* Go byte strings and strings are modelled as `List Char` / `String`
  (one `Char` per byte/rune; byte-level UTF-8 details are not modelled).
* Wall-clock time (`time.Now().UnixNano()`) is an explicit `Int` parameter
  `now` passed to each operation that reads the clock.
* The filesystem of the durable backend is an association list from file
  name to file content; the in-memory table is an association list from
  key to `entry`.  File-system I/O is assumed to succeed; a missing file
  is reported exactly as in `getReader` (`NotExistsError`).
* `encoding/json` on the struct `entry` is modelled by an executable
  printer `marshalEntry` (the canonical field order `key`, `value`,
  `expiration` that `json.Marshal` produces) together with a parser
  `unmarshalEntry` that accepts exactly the canonical encodings and fails
  on everything else.  The `[]byte` value is stored as an escaped quoted
  string in the model (Go uses base64; both are injective encodings that
  `Unmarshal` inverts exactly), and numbers are decimal with an optional
  leading minus sign, as Go prints `int64`.
-/

namespace KVS

/-- Mirrors the Go struct `entry` of storage.go: `Key string`,
`Value []byte`, `Expiration int64` (absolute nanosecond timestamp,
0 = never expires). -/
structure entry where
  key : String
  value : String
  expiration : Int
  deriving Repr, DecidableEq

/-- Error values visible to callers of the storage package.
`notExists` models the sentinel `NotExistsError`; `decodeErr` models a
`json.Unmarshal` error value (any error distinct from the sentinel). -/
inductive StorageErr where
  | notExists
  | decodeErr
  deriving Repr, DecidableEq

/-- `const NoExpiration time.Duration = -1` (storage.go line 17). -/
def NoExpiration : Int := -1

/-- `isExpired` (storage.go lines 334-336):
`expirationTime > 0 && time.Now().UnixNano() > expirationTime`. -/
def isExpired (expirationTime : Int) (now : Int) : Bool :=
  expirationTime > 0 && now > expirationTime

/-- `IsNotExist` of both backends (storage.go lines 91-97, memory.go
lines 87-93): `err == nil → false`, else `err == NotExistsError`. -/
def IsNotExist : Option StorageErr → Bool
  | none => false
  | some e => e = StorageErr.notExists

/-- `md5Hash` (storage.go lines 330-332).  The MD5 digest itself is
library code outside the verification target; it is modelled as an
executable tagging function.  No claim below depends on the value of the
hash, only on the fact that `Put`, `Get` and `Delete` address the file
named `md5Hash key`. -/
def md5Hash (s : String) : String := "h:" ++ s

/-! ### Decimal integer printing and parsing (Go `encoding/json` numbers) -/

/-- The decimal digit character for a digit value below ten. -/
def digitChar : Nat → Char
  | 0 => '0'
  | 1 => '1'
  | 2 => '2'
  | 3 => '3'
  | 4 => '4'
  | 5 => '5'
  | 6 => '6'
  | 7 => '7'
  | 8 => '8'
  | 9 => '9'
  | _ => '0'

/-- Whether a character is a decimal digit. -/
def isDigitChar (c : Char) : Bool :=
  decide (48 ≤ c.toNat) && decide (c.toNat ≤ 57)

/-- Numeric value of a digit character. -/
def digitVal (c : Char) : Nat := c.toNat - 48

/-- Most-significant-first decimal printing of a natural number, with
explicit fuel (the fuel is always sufficient at `printNat`'s call site). -/
def printNatAux : Nat → Nat → List Char
  | 0, _ => []
  | fuel + 1, n =>
    if n < 10 then [digitChar n]
    else printNatAux fuel (n / 10) ++ [digitChar (n % 10)]

/-- Decimal representation of a natural number, as Go prints it. -/
def printNat (n : Nat) : List Char := printNatAux (n + 1) n

/-- Decimal representation of an integer, as Go prints an `int64`. -/
def printInt (i : Int) : List Char :=
  if i < 0 then '-' :: printNat i.natAbs else printNat i.toNat

/-- One step of decimal accumulation. -/
def valStep (a : Nat) (c : Char) : Nat := a * 10 + digitVal c

/-- Consume leading decimal digits, accumulating their value. -/
def parseDigits : List Char → Nat → Nat × List Char
  | [], acc => (acc, [])
  | c :: cs, acc =>
    if isDigitChar c then parseDigits cs (valStep acc c) else (acc, c :: cs)

/-- Parse a nonempty run of decimal digits. -/
def parseNat (l : List Char) : Option (Nat × List Char) :=
  match l with
  | [] => none
  | c :: _ => if isDigitChar c then some (parseDigits l 0) else none

/-- Parse an optionally negated decimal integer. -/
def parseInt (l : List Char) : Option (Int × List Char) :=
  match l with
  | [] => none
  | c :: rest =>
    if c = '-' then (parseNat rest).map (fun p => (-(p.1 : Int), p.2))
    else (parseNat (c :: rest)).map (fun p => ((p.1 : Int), p.2))

/-! ### JSON string escaping and the `entry` codec -/

/-- JSON escaping of the characters that `marshalEntry` escapes:
quotation mark and backslash. -/
def escChars : List Char → List Char
  | [] => []
  | c :: cs =>
    if c = '"' ∨ c = '\\' then '\\' :: c :: escChars cs
    else c :: escChars cs

/-- Parse a JSON string body up to and including the closing quotation
mark, undoing `escChars`; fails on a dangling backslash, an unknown
escape, or a missing closing quote. -/
def parseStringBody : List Char → Option (List Char × List Char)
  | [] => none
  | c :: rest =>
    if c = '"' then some ([], rest)
    else if c = '\\' then
      match rest with
      | [] => none
      | c2 :: rest2 =>
        if c2 = '"' ∨ c2 = '\\' then
          match parseStringBody rest2 with
          | none => none
          | some (s, r) => some (c2 :: s, r)
        else none
    else
      match parseStringBody rest with
      | none => none
      | some (s, r) => some (c :: s, r)

/-- Consume an expected literal sequence of characters. -/
def eatLit : List Char → List Char → Option (List Char)
  | [], rest => some rest
  | _ :: _, [] => none
  | p :: ps, c :: cs => if c = p then eatLit ps cs else none

/-- `json.Marshal` of an `entry` value (storage.go line 235): the
canonical encoding `\x7b"key":K,"value":V,"expiration":E\x7d` with `K`,
`V` quoted escaped strings and `E` a decimal integer. -/
def marshalEntry (e : entry) : List Char :=
  ("\x7b\"key\":\"").data ++ escChars e.key.data
    ++ ("\",\"value\":\"").data ++ escChars e.value.data
    ++ ("\",\"expiration\":").data ++ printInt e.expiration
    ++ ("\x7d").data

/-- `json.Unmarshal` of stored bytes into an `entry` (storage.go line
141): accepts exactly the canonical encodings produced by
`marshalEntry` and fails on all other inputs.  (Go's `Unmarshal` also
accepts non-canonical spellings such as reordered fields; none of those
are ever written by this program, whose only writer is `Put`.) -/
def unmarshalEntry (b : List Char) : Option entry := do
  let r1 ← eatLit ("\x7b\"key\":\"").data b
  let (k, r2) ← parseStringBody r1
  let r3 ← eatLit (",\"value\":\"").data r2
  let (v, r4) ← parseStringBody r3
  let r5 ← eatLit (",\"expiration\":").data r4
  let (x, r6) ← parseInt r5
  let r7 ← eatLit ("\x7d").data r6
  if r7 = [] then some ⟨String.mk k, String.mk v, x⟩ else none

/-! ### Glob matching: model of Go `path/filepath.Match`

The build uses a current Go toolchain (Dockerfile: `FROM golang:latest`),
so the matcher modelled here is the present-day `path/filepath/match.go`:
`scanChunk` splits the pattern into star-prefixed chunks, `matchChunk`
matches one chunk in "failed" mode (after a mismatch it keeps scanning
the chunk so that syntax errors are still reported), and `Match` walks
the chunks, backtracks over `*`, and validates the remainder of the
pattern before returning a non-matching result.  Recursions that are not
structural carry explicit fuel; each public wrapper passes fuel that is
proved sufficient below.  `none` models `ErrBadPattern`. -/

/-- `Separator` of `path/filepath` on a non-Windows build. -/
def Separator : Char := '/'

/-- The leading-star loop of `scanChunk`: strip `*`s, report whether any
was present. -/
def dropStars : List Char → Bool × List Char
  | [] => (false, [])
  | c :: p =>
    if c = '*' then (true, (dropStars p).2)
    else (false, c :: p)

/-- The `Scan` loop of `scanChunk`: split off everything up to the next
top-level `*`, tracking bracket nesting (`inrange`) and skipping the
character after a backslash. -/
def splitChunk : Bool → List Char → List Char × List Char
  | _, [] => ([], [])
  | inrange, c :: p =>
    if c = '*' ∧ inrange = false then ([], c :: p)
    else if c = '\\' then
      match p with
      | [] => ([c], [])
      | d :: p' =>
        let q := splitChunk inrange p'
        (c :: d :: q.1, q.2)
    else
      let inrange' := if c = '[' then true else if c = ']' then false else inrange
      let q := splitChunk inrange' p
      (c :: q.1, q.2)

/-- `scanChunk pattern = (star, chunk, rest)`. -/
def scanChunk (p : List Char) : Bool × List Char × List Char :=
  let q := dropStars p
  let sc := splitChunk false q.2
  (q.1, sc.1, sc.2)

/-- `getEsc`: read a possibly-escaped character of a bracket expression;
errors (`none`) on `-`, `]`, a dangling backslash, or when nothing would
remain after the character (a closing bracket must still follow). -/
def getEsc : List Char → Option (Char × List Char)
  | [] => none
  | c :: p =>
    if c = '-' ∨ c = ']' then none
    else if c = '\\' then
      match p with
      | [] => none
      | d :: p' => if p' = [] then none else some (d, p')
    else if p = [] then none else some (c, p)

/-- The range-parsing loop inside the `[` case of `matchChunk`: `r` is
the rune being classified, `m` accumulates whether some range matched,
`nrange` counts parsed ranges.  Returns the match flag and the chunk
after the closing bracket.  Fuelled; fuel `chunk.length + 1` suffices. -/
def matchRangesF : Nat → Char → List Char → Nat → Bool → Option (Bool × List Char)
  | 0, _, _, _, _ => none
  | fuel + 1, r, chunk, nrange, m =>
    if chunk.head? = some ']' ∧ 0 < nrange then some (m, chunk.tail)
    else
      match getEsc chunk with
      | none => none
      | some (lo, chunk1) =>
        match chunk1 with
        | [] => none
        | c1 :: chunk1' =>
          if c1 = '-' then
            match getEsc chunk1' with
            | none => none
            | some (hi, chunk2) =>
              matchRangesF fuel r chunk2 (nrange + 1)
                (m || (decide (lo ≤ r) && decide (r ≤ hi)))
          else
            matchRangesF fuel r (c1 :: chunk1') (nrange + 1)
              (m || (decide (lo ≤ r) && decide (r ≤ lo)))

/-- `matchRanges r chunk nrange m` with sufficient fuel. -/
def matchRanges (r : Char) (chunk : List Char) (nrange : Nat) (m : Bool) :
    Option (Bool × List Char) :=
  matchRangesF (chunk.length + 1) r chunk nrange m

/-- `matchChunk` of match.go, in the current "failed-mode" form: after a
mismatch (`failed = true`) the chunk is still consumed so that malformed
patterns surface `ErrBadPattern` (`none`) independent of the name.
Returns `some (rest-of-name, ok)`.  Fuelled; fuel `chunk.length + 1`
suffices. -/
def matchChunkAuxF : Nat → List Char → List Char → Bool → Option (List Char × Bool)
  | 0, _, _, _ => none
  | fuel + 1, chunk, s, failed0 =>
    match chunk with
    | [] => if failed0 then some ([], false) else some (s, true)
    | c :: ck =>
      let failed := failed0 || s.isEmpty
      if c = '[' then
        let r : Char := if failed then Char.ofNat 0 else s.headD (Char.ofNat 0)
        let s1 : List Char := if failed then s else s.tail
        let negated : Bool := decide (ck.head? = some '^')
        let ck1 := if negated then ck.tail else ck
        match matchRanges r ck1 0 false with
        | none => none
        | some (m, ck2) => matchChunkAuxF fuel ck2 s1 (failed || (m == negated))
      else if c = '?' then
        if failed then matchChunkAuxF fuel ck s failed
        else matchChunkAuxF fuel ck s.tail (decide (s.headD (Char.ofNat 0) = Separator))
      else if c = '\\' then
        match ck with
        | [] => none
        | d :: ck' =>
          if failed then matchChunkAuxF fuel ck' s failed
          else
            match s with
            | [] => none
            | c0 :: s' => matchChunkAuxF fuel ck' s' (!(d == c0))
      else
        if failed then matchChunkAuxF fuel ck s failed
        else
          match s with
          | [] => none
          | c0 :: s' => matchChunkAuxF fuel ck s' (!(c == c0))

/-- One chunk-match attempt, `failed` a parameter for the lemmas below. -/
def matchChunkAux (chunk s : List Char) (failed : Bool) : Option (List Char × Bool) :=
  matchChunkAuxF (chunk.length + 1) chunk s failed

/-- `matchChunk chunk s` as called by `Match`. -/
def matchChunk (chunk s : List Char) : Option (List Char × Bool) :=
  matchChunkAux chunk s false

/-- The final loop of `Match`: before returning a non-matching result,
check that the remainder of the pattern is syntactically valid by
running `matchChunk` of each remaining chunk against the empty name.
Fuelled; fuel `p.length + 1` suffices. -/
def validChunksF : Nat → List Char → Bool
  | 0, _ => false
  | fuel + 1, p =>
    match p with
    | [] => true
    | _ :: _ =>
      let sc := scanChunk p
      match matchChunk sc.2.1 [] with
      | none => false
      | some _ => validChunksF fuel sc.2.2

/-- Syntactic validity of a pattern, exactly as `Match`'s final loop
checks it. -/
def validChunks (p : List Char) : Bool := validChunksF (p.length + 1) p

/-- Outcome of the star-backtracking loop inside `Match`. -/
inductive StarRes where
  | err
  | found (t : List Char)
  | nomatch
  deriving Repr, DecidableEq

/-- The `star` loop of `Match`: try to match the chunk at every later
position of the name, not skipping past a separator. -/
def starLoop (chunk rest : List Char) : List Char → StarRes
  | [] => StarRes.nomatch
  | c :: name' =>
    if c = Separator then StarRes.nomatch
    else
      match matchChunk chunk name' with
      | none => StarRes.err
      | some (t, ok) =>
        if ok then
          if rest = [] ∧ t ≠ [] then starLoop chunk rest name'
          else StarRes.found t
        else starLoop chunk rest name'

/-- The main loop of `Match`.  Fuelled; fuel `pattern.length + 1`
suffices. -/
def matchGoAuxF : Nat → List Char → List Char → Option Bool
  | 0, _, _ => none
  | fuel + 1, pattern, name =>
    match pattern with
    | [] => some name.isEmpty
    | _ :: _ =>
      let q := scanChunk pattern
      let star := q.1
      let chunk := q.2.1
      let rest := q.2.2
      if star ∧ chunk = [] then some (!(name.contains '/'))
      else
        match matchChunk chunk name with
        | none => none
        | some (t, ok) =>
          if ok ∧ (t = [] ∨ rest ≠ []) then matchGoAuxF fuel rest t
          else
            match (if star then starLoop chunk rest name else StarRes.nomatch) with
            | StarRes.err => none
            | StarRes.found t' => matchGoAuxF fuel rest t'
            | StarRes.nomatch => if validChunks rest then some false else none

/-- `filepath.Match pattern name`: `some matched`, or `none` for
`ErrBadPattern`. -/
def matchGo (pattern name : List Char) : Option Bool :=
  matchGoAuxF (pattern.length + 1) pattern name

/-! ### The durable one-file-per-key backend (`LocalStorage`) -/

/-- Look a file up by name in the storage directory. -/
def findFile : List (String × List Char) → String → Option (List Char)
  | [], _ => none
  | (n, d) :: fs, name => if n = name then some d else findFile fs name

/-- Create-or-truncate-and-rewrite a file (`getWriter`, `Truncate`,
`Seek 0`, `Write`): replace the content under an existing name, or add
the file. -/
def setFile : List (String × List Char) → String → List Char → List (String × List Char)
  | [], name, d => [(name, d)]
  | (n, c) :: fs, name, d =>
    if n = name then (n, d) :: fs else (n, c) :: setFile fs name d

/-- `os.Remove` of a file name. -/
def removeFile : List (String × List Char) → String → List (String × List Char)
  | [], _ => []
  | (n, c) :: fs, name => if n = name then fs else (n, c) :: removeFile fs name

/-- State of the durable backend: the storage directory, one file per
key (file name, file content).  Directory-listing order is the list
order; result ordering of pattern scans is unspecified by the spec. -/
structure LocalStorage where
  files : List (String × List Char)
  deriving Repr, DecidableEq

namespace LocalStorage

/-- `getStorageData` (storage.go lines 264-282): open the file read-only
(`getReader` reports a missing file as `NotExistsError`) and read it
whole.  I/O on an existing file is modelled as succeeding. -/
def getStorageData (s : LocalStorage) (key : String) : Except StorageErr (List Char) :=
  match findFile s.files key with
  | none => Except.error StorageErr.notExists
  | some b => Except.ok b

/-- `dumpToStorage` (storage.go lines 302-328): hash the key, then
create-or-truncate the file and write the encoded entry. -/
def dumpToStorage (s : LocalStorage) (key : String) (data : List Char) : LocalStorage :=
  ⟨setFile s.files (md5Hash key) data⟩

/-- `LocalStorage.Put` (storage.go lines 220-241).  `expiration` is the
`time.Duration` argument in nanoseconds; `now` is `time.Now()` at write
time.  `json.Marshal` of an `entry` cannot fail, and file I/O is
modelled as succeeding, so the returned error is `none`. -/
def Put (s : LocalStorage) (key value : String) (expiration : Int) (now : Int) :
    LocalStorage × Option StorageErr :=
  let newExpiration : Int := if expiration ≠ NoExpiration then now + expiration else 0
  let newEntry : entry := ⟨key, value, newExpiration⟩
  let dumped := marshalEntry newEntry
  (dumpToStorage s key dumped, none)

/-- `LocalStorage.Get` (storage.go lines 123-151).  Returns the byte
stream handed to the caller together with the error; on every error path
the code returns the empty reader `bytes.NewReader(nil)`. -/
def Get (s : LocalStorage) (key : String) (now : Int) : List Char × Option StorageErr :=
  match getStorageData s (md5Hash key) with
  | Except.error e => ([], some e)
  | Except.ok b =>
    if b.length = 0 then ([], some StorageErr.notExists)
    else
      match unmarshalEntry b with
      | none => ([], some StorageErr.decodeErr)
      | some e =>
        if !isExpired e.expiration now then (e.value.data, none)
        else ([], some StorageErr.notExists)

/-- `deleteStorage` (storage.go lines 284-300): `os.Remove`, with a
missing file reported as `NotExistsError`. -/
def deleteStorage (s : LocalStorage) (key : String) : LocalStorage × Option StorageErr :=
  match findFile s.files key with
  | none => (s, some StorageErr.notExists)
  | some _ => (⟨removeFile s.files key⟩, none)

/-- `LocalStorage.Delete` (storage.go lines 195-202). -/
def Delete (s : LocalStorage) (key : String) : LocalStorage × Option StorageErr :=
  deleteStorage s (md5Hash key)

end LocalStorage

/-- `fmt.Sprintf("\x7b\"%s\":\"%s\"\x7d", entry.Key, entry.Value)`: the
wire form of one pattern-scan result; key and value are interpolated
raw. -/
def entryLine (e : entry) : String :=
  "\x7b\"" ++ e.key ++ "\":\"" ++ e.value ++ "\"\x7d"

namespace LocalStorage

/-- The body of the `GetPattern` scan loop (storage.go lines 165-188)
for one directory entry: `none` means the loop `continue`s without
appending. -/
def scanStep (s : LocalStorage) (pattern : String) (now : Int) (key : String) :
    Option String :=
  match getStorageData s key with
  | Except.error _ => none
  | Except.ok b =>
    if b.length = 0 then none
    else
      match unmarshalEntry b with
      | none => none
      | some e =>
        match matchGo pattern.data e.key.data with
        | none => none
        | some false => none
        | some true =>
          if !isExpired e.expiration now then some (entryLine e) else none

/-- `LocalStorage.GetPattern` (storage.go lines 153-193): list all file
names, run the scan loop, and render `[item,item,...]`. -/
def GetPattern (s : LocalStorage) (pattern : String) (now : Int) :
    List Char × Option StorageErr :=
  let keys := s.files.map Prod.fst
  let ret := keys.foldl
    (fun acc key =>
      match scanStep s pattern now key with
      | none => acc
      | some line => acc ++ [line]) []
  (("[" ++ String.intercalate "," ret ++ "]").data, none)

end LocalStorage

/-! ### The in-memory backend (`MemoryStorage`) -/

/-- Go map read `s.data[key]`. -/
def lookupMem : List (String × entry) → String → Option entry
  | [], _ => none
  | (k, e) :: rest, key => if k = key then some e else lookupMem rest key

/-- Go map write `s.data[key] = e`. -/
def setMem : List (String × entry) → String → entry → List (String × entry)
  | [], key, e => [(key, e)]
  | (k, e0) :: rest, key, e =>
    if k = key then (k, e) :: rest else (k, e0) :: setMem rest key e

/-- Go map delete `delete(s.data, key)`. -/
def eraseMem : List (String × entry) → String → List (String × entry)
  | [], _ => []
  | (k, e0) :: rest, key =>
    if k = key then rest else (k, e0) :: eraseMem rest key

/-- State of the in-memory backend: the table `data map[string]entry`,
modelled as an association list (Go map iteration order is unspecified;
the model fixes the representation order).  The snapshot file and the
background flush task are not part of any claim and are not modelled. -/
structure MemoryStorage where
  data : List (String × entry)
  deriving Repr, DecidableEq

namespace MemoryStorage

/-- `MemoryStorage.Get` (memory.go lines 119-133). -/
def Get (s : MemoryStorage) (key : String) (now : Int) : List Char × Option StorageErr :=
  match lookupMem s.data key with
  | none => ([], some StorageErr.notExists)
  | some e =>
    if !isExpired e.expiration now then (e.value.data, none)
    else ([], some StorageErr.notExists)

/-- `MemoryStorage.Put` (memory.go lines 182-200): writes the table and
returns `nil` unconditionally. -/
def Put (s : MemoryStorage) (key value : String) (expiration : Int) (now : Int) :
    MemoryStorage × Option StorageErr :=
  let newExpiration : Int := if expiration ≠ NoExpiration then now + expiration else 0
  let newEntry : entry := ⟨key, value, newExpiration⟩
  (⟨setMem s.data key newEntry⟩, none)

/-- `MemoryStorage.Delete` (memory.go lines 157-169). -/
def Delete (s : MemoryStorage) (key : String) : MemoryStorage × Option StorageErr :=
  match lookupMem s.data key with
  | none => (s, some StorageErr.notExists)
  | some _ => (⟨eraseMem s.data key⟩, none)

/-- The body of the `GetPattern` loop (memory.go lines 142-150) for one
table entry. -/
def scanStep (pattern : String) (now : Int) (e : entry) : Option String :=
  match matchGo pattern.data e.key.data with
  | none => none
  | some false => none
  | some true =>
    if !isExpired e.expiration now then some (entryLine e) else none

/-- `MemoryStorage.GetPattern` (memory.go lines 135-155). -/
def GetPattern (s : MemoryStorage) (pattern : String) (now : Int) :
    List Char × Option StorageErr :=
  let ret := s.data.foldl
    (fun acc kv =>
      match scanStep pattern now kv.2 with
      | none => acc
      | some line => acc ++ [line]) []
  (("[" ++ String.intercalate "," ret ++ "]").data, none)

end MemoryStorage

/-! ## Lemmas: the decimal codec round trip -/

theorem printNatAux_fuel (n : Nat) : ∀ f₁ f₂, n < f₁ → n < f₂ →
    printNatAux f₁ n = printNatAux f₂ n := by
  induction n using Nat.strong_induction_on with
  | _ n ih =>
    intro f₁ f₂ h₁ h₂
    obtain ⟨g₁, rfl⟩ : ∃ g, f₁ = g + 1 := ⟨f₁ - 1, by omega⟩
    obtain ⟨g₂, rfl⟩ : ∃ g, f₂ = g + 1 := ⟨f₂ - 1, by omega⟩
    by_cases h : n < 10
    · simp [printNatAux, h]
    · have hd : n / 10 < n := Nat.div_lt_self (by omega) (by omega)
      simp only [printNatAux, if_neg h]
      rw [ih (n / 10) hd g₁ g₂ (by omega) (by omega)]

theorem printNat_eq (n : Nat) : printNat n =
    if n < 10 then [digitChar n] else printNat (n / 10) ++ [digitChar (n % 10)] := by
  by_cases h : n < 10
  · simp [printNat, printNatAux, h]
  · have h1 : printNat n = printNatAux n (n / 10) ++ [digitChar (n % 10)] := by
      simp [printNat, printNatAux, h]
    rw [h1, if_neg h, printNat,
      printNatAux_fuel (n / 10) n (n / 10 + 1) (by omega) (by omega)]

theorem printNat_ne_nil (n : Nat) : printNat n ≠ [] := by
  rw [printNat_eq]
  by_cases h : n < 10 <;> simp [h]

theorem isDigitChar_digitChar {d : Nat} (h : d < 10) : isDigitChar (digitChar d) = true := by
  interval_cases d <;> decide

theorem digitVal_digitChar {d : Nat} (h : d < 10) : digitVal (digitChar d) = d := by
  interval_cases d <;> decide

theorem printNat_digits (n : Nat) : ∀ c ∈ printNat n, isDigitChar c = true := by
  induction n using Nat.strong_induction_on with
  | _ n ih =>
    rw [printNat_eq]
    by_cases h : n < 10
    · simpa [h] using isDigitChar_digitChar h
    · have hd : n / 10 < n := Nat.div_lt_self (by omega) (by omega)
      simp only [if_neg h]
      intro c hc
      rcases List.mem_append.mp hc with hc | hc
      · exact ih _ hd c hc
      · simp only [List.mem_singleton] at hc
        subst hc
        exact isDigitChar_digitChar (by omega)

theorem printNat_foldl (n : Nat) : ∀ acc, (printNat n).foldl valStep acc =
    acc * 10 ^ (printNat n).length + n := by
  induction n using Nat.strong_induction_on with
  | _ n ih =>
    intro acc
    rw [printNat_eq]
    by_cases h : n < 10
    · simp [h, valStep, digitVal_digitChar h]
    · have hd : n / 10 < n := Nat.div_lt_self (by omega) (by omega)
      simp only [if_neg h, List.foldl_append, List.length_append, List.length_singleton]
      rw [ih _ hd]
      simp only [List.foldl_cons, List.foldl_nil, valStep,
        digitVal_digitChar (show n % 10 < 10 by omega)]
      have hsplit : n / 10 * 10 + n % 10 = n := by omega
      have hpow : 10 ^ ((printNat (n / 10)).length + 1) =
          10 ^ (printNat (n / 10)).length * 10 := by ring
      rw [hpow]
      calc (acc * 10 ^ (printNat (n / 10)).length + n / 10) * 10 + n % 10
          = acc * (10 ^ (printNat (n / 10)).length * 10) + (n / 10 * 10 + n % 10) := by ring
        _ = acc * (10 ^ (printNat (n / 10)).length * 10) + n := by rw [hsplit]

theorem parseDigits_append (s : List Char) (hs : ∀ c ∈ s, isDigitChar c = true) :
    ∀ rest acc, parseDigits (s ++ rest) acc = parseDigits rest (s.foldl valStep acc) := by
  induction s with
  | nil =>
    intro rest acc
    simp
  | cons c cs ih =>
    intro rest acc
    have hc : isDigitChar c = true := hs c (by simp)
    simp only [List.cons_append, parseDigits, hc, if_pos, List.foldl_cons]
    exact ih (fun d hd => hs d (by simp [hd])) rest (valStep acc c)

theorem parseDigits_stop (rest : List Char) (acc : Nat)
    (h : ∀ c, rest.head? = some c → isDigitChar c = false) :
    parseDigits rest acc = (acc, rest) := by
  cases rest with
  | nil => simp [parseDigits]
  | cons c cs => simp [parseDigits, h c rfl]

theorem parseNat_printNat (n : Nat) (rest : List Char)
    (h : ∀ c, rest.head? = some c → isDigitChar c = false) :
    parseNat (printNat n ++ rest) = some (n, rest) := by
  rcases hps : printNat n with _ | ⟨c, s⟩
  · exact absurd hps (printNat_ne_nil n)
  · have hc : isDigitChar c = true := printNat_digits n c (by rw [hps]; simp)
    simp only [List.cons_append, parseNat, hc, if_true]
    rw [show c :: (s ++ rest) = (c :: s) ++ rest from rfl, ← hps,
      parseDigits_append _ (printNat_digits n) rest 0,
      parseDigits_stop rest _ h, printNat_foldl]
    simp

theorem parseInt_printInt (i : Int) (rest : List Char)
    (h : ∀ c, rest.head? = some c → isDigitChar c = false) :
    parseInt (printInt i ++ rest) = some (i, rest) := by
  by_cases hi : i < 0
  · simp only [printInt, if_pos hi, List.cons_append, parseInt, if_pos rfl]
    rw [parseNat_printNat _ _ h]
    simp only [Option.map_some', if_true, Option.some.injEq, Prod.mk.injEq, and_true]
    omega

  · simp only [printInt, if_neg hi]
    rcases hps : printNat i.toNat with _ | ⟨c, s⟩
    · exact absurd hps (printNat_ne_nil _)
    · have hc : isDigitChar c = true := printNat_digits _ c (by rw [hps]; simp)
      have hcd : ¬ (c = '-') := by
        intro he
        rw [he] at hc
        exact absurd hc (by decide)
      simp only [List.cons_append, parseInt, if_neg hcd]
      rw [show c :: (s ++ rest) = (c :: s) ++ rest from rfl, ← hps,
        parseNat_printNat _ _ h]
      simp only [Option.map_some', Option.some.injEq, Prod.mk.injEq, and_true]
      omega

/-! ## Lemmas: the string-escaping and entry-codec round trip -/

theorem parseStringBody_round (l : List Char) :
    ∀ rest, parseStringBody (escChars l ++ '"' :: rest) = some (l, rest) := by
  induction l with
  | nil =>
    intro rest
    rw [show escChars [] ++ '"' :: rest = '"' :: rest from rfl,
      parseStringBody.eq_def]
    simp
  | cons c cs ih =>
    intro rest
    by_cases h1 : c = '"'
    · subst h1
      simp only [escChars, if_pos (by simp : ('"' : Char) = '"' ∨ ('"' : Char) = '\\'),
        List.cons_append]
      rw [parseStringBody.eq_def]
      simp [ih]
    · by_cases h2 : c = '\\'
      · subst h2
        simp only [escChars, if_pos (by simp : ('\\' : Char) = '"' ∨ ('\\' : Char) = '\\'),
          List.cons_append]
        rw [parseStringBody.eq_def]
        simp [ih]
      · simp only [escChars, if_neg (show ¬ (c = '"' ∨ c = '\\') by tauto),
          List.cons_append]
        rw [parseStringBody.eq_def]
        simp [h1, h2, ih]

theorem eatLit_append (p rest : List Char) : eatLit p (p ++ rest) = some rest := by
  induction p with
  | nil => simp [eatLit]
  | cons c cs ih => simp [eatLit, ih]

theorem eatLit_self (p : List Char) : eatLit p p = some [] := by
  simpa using eatLit_append p []

theorem unmarshal_marshal (e : entry) : unmarshalEntry (marshalEntry e) = some e := by
  obtain ⟨⟨kl⟩, ⟨vl⟩, x⟩ := e
  simp only [marshalEntry, unmarshalEntry, List.append_assoc, Option.bind_eq_bind]
  rw [eatLit_append]
  simp only [Option.some_bind, List.cons_append, List.nil_append]
  rw [parseStringBody_round]
  simp [eatLit]
  rw [parseStringBody_round]
  simp [eatLit]
  rw [parseInt_printInt x ['}']
    (by
      intro c hc
      simp only [List.head?_cons, Option.some.injEq] at hc
      subst hc
      decide)]
  simp [eatLit]

/-! ## Lemmas: the file directory and the in-memory table -/

theorem findFile_setFile_self (fs : List (String × List Char)) (n : String) (d : List Char) :
    findFile (setFile fs n d) n = some d := by
  induction fs with
  | nil => simp [setFile, findFile]
  | cons kv fs ih =>
    obtain ⟨k, c⟩ := kv
    by_cases h : k = n
    · simp [setFile, findFile, h]
    · simp [setFile, findFile, h, ih]

theorem lookupMem_setMem_self (ds : List (String × entry)) (k : String) (e : entry) :
    lookupMem (setMem ds k e) k = some e := by
  induction ds with
  | nil => simp [setMem, lookupMem]
  | cons kv ds ih =>
    obtain ⟨k0, e0⟩ := kv
    by_cases h : k0 = k
    · simp [setMem, lookupMem, h]
    · simp [setMem, lookupMem, h, ih]

theorem findFile_middle (pre post : List (String × List Char)) (f n : String)
    (b : List Char) (hne : n ≠ f) :
    findFile (pre ++ (f, b) :: post) n = findFile (pre ++ post) n := by
  induction pre with
  | nil =>
    simp only [List.nil_append, findFile]
    rw [if_neg (fun h => hne h.symm)]
  | cons kv pre ih =>
    obtain ⟨k0, c0⟩ := kv
    by_cases h : k0 = n
    · simp [findFile, h]
    · simp [findFile, h, ih]

theorem marshalEntry_length_pos (e : entry) : 0 < (marshalEntry e).length := by
  simp [marshalEntry]

/-! ## Lemmas: Get after Put, on both backends -/

theorem local_get_after_set (st : LocalStorage) (k v : String) (E now : Int) :
    LocalStorage.Get ⟨setFile st.files (md5Hash k) (marshalEntry ⟨k, v, E⟩)⟩ k now =
      (if isExpired E now then ([], some StorageErr.notExists) else (v.data, none)) := by
  simp only [LocalStorage.Get, LocalStorage.getStorageData, findFile_setFile_self]
  have hlen : ¬ ((marshalEntry ⟨k, v, E⟩).length = 0) := by
    have := marshalEntry_length_pos (⟨k, v, E⟩ : entry)
    omega
  rw [if_neg hlen, unmarshal_marshal]
  by_cases he : isExpired E now <;> simp [he]

theorem local_get_put (st : LocalStorage) (k v : String) (d t now : Int) :
    LocalStorage.Get (LocalStorage.Put st k v d t).1 k now =
      (if isExpired (if d ≠ NoExpiration then t + d else 0) now
       then ([], some StorageErr.notExists)
       else (v.data, none)) :=
  local_get_after_set st k v _ now

theorem mem_get_after_set (ms : MemoryStorage) (k v : String) (E now : Int) :
    MemoryStorage.Get ⟨setMem ms.data k ⟨k, v, E⟩⟩ k now =
      (if isExpired E now then ([], some StorageErr.notExists) else (v.data, none)) := by
  simp only [MemoryStorage.Get, lookupMem_setMem_self]
  by_cases he : isExpired E now <;> simp [he]

theorem mem_get_put (ms : MemoryStorage) (k v : String) (d t now : Int) :
    MemoryStorage.Get (MemoryStorage.Put ms k v d t).1 k now =
      (if isExpired (if d ≠ NoExpiration then t + d else 0) now
       then ([], some StorageErr.notExists)
       else (v.data, none)) :=
  mem_get_after_set ms k v _ now

theorem isExpired_zero (now : Int) : isExpired 0 now = false := by
  simp [isExpired]

/-! ## Claim C1 -/

/-- Claim C1: for every key and value, on either backend,
`Put(key, value, NoExpiration)` followed by `Get(key)` (at any later
time) returns exactly the bytes of the value: the encode/store/decode
round trip is the identity. -/
theorem claim1_put_get_roundtrip (st : LocalStorage) (ms : MemoryStorage)
    (k v : String) (tput tget : Int) :
    LocalStorage.Get (LocalStorage.Put st k v NoExpiration tput).1 k tget
        = (v.data, none)
    ∧ MemoryStorage.Get (MemoryStorage.Put ms k v NoExpiration tput).1 k tget
        = (v.data, none) := by
  constructor
  · rw [local_get_put]
    simp [isExpired_zero]
  · rw [mem_get_put]
    simp [isExpired_zero]

/-! ## Claim C3 -/

/-- Claim C3: a second `Put` on the same key always succeeds, fully
overwrites the stored entry with the new value and expiration, and a
subsequent `Get` observes the second value (or, if the new entry's
expiration has passed, the not-found result) — never the first value.
Both backends. -/
theorem claim3_put_overwrites (st : LocalStorage) (ms : MemoryStorage)
    (k v1 v2 : String) (e1 t1 e2 t2 now : Int) :
    ((LocalStorage.Put (LocalStorage.Put st k v1 e1 t1).1 k v2 e2 t2).2 = none
      ∧ findFile (LocalStorage.Put (LocalStorage.Put st k v1 e1 t1).1 k v2 e2 t2).1.files
          (md5Hash k)
          = some (marshalEntry ⟨k, v2, if e2 ≠ NoExpiration then t2 + e2 else 0⟩)
      ∧ (LocalStorage.Get (LocalStorage.Put (LocalStorage.Put st k v1 e1 t1).1 k v2 e2 t2).1 k now
            = (v2.data, none)
          ∨ LocalStorage.Get (LocalStorage.Put (LocalStorage.Put st k v1 e1 t1).1 k v2 e2 t2).1 k now
            = ([], some StorageErr.notExists)))
    ∧ ((MemoryStorage.Put (MemoryStorage.Put ms k v1 e1 t1).1 k v2 e2 t2).2 = none
      ∧ lookupMem (MemoryStorage.Put (MemoryStorage.Put ms k v1 e1 t1).1 k v2 e2 t2).1.data k
          = some ⟨k, v2, if e2 ≠ NoExpiration then t2 + e2 else 0⟩
      ∧ (MemoryStorage.Get (MemoryStorage.Put (MemoryStorage.Put ms k v1 e1 t1).1 k v2 e2 t2).1 k now
            = (v2.data, none)
          ∨ MemoryStorage.Get (MemoryStorage.Put (MemoryStorage.Put ms k v1 e1 t1).1 k v2 e2 t2).1 k now
            = ([], some StorageErr.notExists))) := by
  refine ⟨⟨rfl, ?_, ?_⟩, ⟨rfl, ?_, ?_⟩⟩
  · exact findFile_setFile_self _ _ _
  · rw [local_get_put]
    by_cases he : isExpired (if e2 ≠ NoExpiration then t2 + e2 else 0) now
    · rw [if_pos he]
      right
      rfl
    · rw [if_neg he]
      left
      rfl
  · exact lookupMem_setMem_self _ _ _
  · rw [mem_get_put]
    by_cases he : isExpired (if e2 ≠ NoExpiration then t2 + e2 else 0) now
    · rw [if_pos he]
      right
      rfl
    · rw [if_neg he]
      left
      rfl

/-! ## Claim C9 -/

theorem local_get_shape (st : LocalStorage) (k : String) (now : Int) :
    (LocalStorage.Get st k now).2 = none ∨ (LocalStorage.Get st k now).1 = [] := by
  unfold LocalStorage.Get
  rcases LocalStorage.getStorageData st (md5Hash k) with e | b
  · right
    rfl
  · dsimp only
    by_cases hl : b.length = 0
    · right
      rw [if_pos hl]
    · rw [if_neg hl]
      rcases unmarshalEntry b with _ | e
      · right
        rfl
      · dsimp only
        by_cases he : isExpired e.expiration now
        · right
          simp [he]
        · left
          simp [he]

theorem mem_get_shape (ms : MemoryStorage) (k : String) (now : Int) :
    (MemoryStorage.Get ms k now).2 = none ∨ (MemoryStorage.Get ms k now).1 = [] := by
  unfold MemoryStorage.Get
  rcases lookupMem ms.data k with _ | e
  · right
    rfl
  · dsimp only
    by_cases he : isExpired e.expiration now
    · right
      simp [he]
    · left
      simp [he]

/-- Claim C9: whenever `Get` returns a non-nil error, on either backend,
the reader returned with it is empty: all error paths return
`bytes.NewReader(nil)`. -/
theorem claim9_error_empty_reader (st : LocalStorage) (ms : MemoryStorage)
    (k : String) (now : Int) :
    ((LocalStorage.Get st k now).2 ≠ none → (LocalStorage.Get st k now).1 = [])
    ∧ ((MemoryStorage.Get ms k now).2 ≠ none → (MemoryStorage.Get ms k now).1 = []) := by
  constructor
  · intro h
    rcases local_get_shape st k now with h1 | h2
    · exact absurd h1 h
    · exact h2
  · intro h
    rcases mem_get_shape ms k now with h1 | h2
    · exact absurd h1 h
    · exact h2

/-- Witness for C9 at a concrete input: a `Get` on an empty store errors
and indeed hands back the empty reader. -/
theorem claim9_witness :
    (LocalStorage.Get ⟨[]⟩ "k" 0).2 ≠ none ∧ (LocalStorage.Get ⟨[]⟩ "k" 0).1 = []
    ∧ (MemoryStorage.Get ⟨[]⟩ "k" 0).2 ≠ none ∧ (MemoryStorage.Get ⟨[]⟩ "k" 0).1 = [] :=
  ⟨by decide, (claim9_error_empty_reader ⟨[]⟩ ⟨[]⟩ "k" 0).1 (by decide),
   by decide, (claim9_error_empty_reader ⟨[]⟩ ⟨[]⟩ "k" 0).2 (by decide)⟩

/-! ## Lemmas: the pattern-scan loop as a filterMap -/

theorem foldl_collect {α : Type} (f : α → Option String) (l : List α) :
    ∀ acc, l.foldl
        (fun acc x => match f x with | none => acc | some line => acc ++ [line]) acc
      = acc ++ l.filterMap f := by
  induction l with
  | nil =>
    intro acc
    simp
  | cons x xs ih =>
    intro acc
    rcases hf : f x with _ | line
    · simp only [List.foldl_cons, hf, List.filterMap_cons_none hf]
      exact ih acc
    · simp only [List.foldl_cons, hf, List.filterMap_cons_some hf]
      rw [ih (acc ++ [line])]
      simp

theorem local_getPattern_eq (s : LocalStorage) (p : String) (now : Int) :
    LocalStorage.GetPattern s p now =
      (("[" ++ String.intercalate ","
          ((s.files.map Prod.fst).filterMap (LocalStorage.scanStep s p now)) ++ "]").data,
       none) := by
  simp only [LocalStorage.GetPattern]
  rw [foldl_collect (LocalStorage.scanStep s p now) (s.files.map Prod.fst) []]
  rfl

theorem mem_getPattern_eq (s : MemoryStorage) (p : String) (now : Int) :
    MemoryStorage.GetPattern s p now =
      (("[" ++ String.intercalate ","
          (s.data.filterMap (fun kv => MemoryStorage.scanStep p now kv.2)) ++ "]").data,
       none) := by
  simp only [MemoryStorage.GetPattern]
  rw [foldl_collect (fun kv => MemoryStorage.scanStep p now kv.2) s.data []]
  rfl

theorem findFile_skip (pre rest : List (String × List Char)) (n : String)
    (h : n ∉ pre.map Prod.fst) :
    findFile (pre ++ rest) n = findFile rest n := by
  induction pre with
  | nil => simp
  | cons kv pre ih =>
    obtain ⟨k0, c0⟩ := kv
    simp only [List.map_cons, List.mem_cons, not_or] at h
    simp only [List.cons_append, findFile]
    rw [if_neg (fun he => h.1 he.symm)]
    exact ih h.2

theorem local_scanStep_none (st : LocalStorage) (p : String) (now : Int) (f : String)
    (b : List Char) (hfind : findFile st.files f = some b)
    (h : unmarshalEntry b = none
        ∨ ∀ e, unmarshalEntry b = some e → isExpired e.expiration now = true) :
    LocalStorage.scanStep st p now f = none := by
  unfold LocalStorage.scanStep LocalStorage.getStorageData
  rw [hfind]
  dsimp only
  by_cases hl : b.length = 0
  · rw [if_pos hl]
  · rw [if_neg hl]
    rcases hu : unmarshalEntry b with _ | e
    · rfl
    · rcases h with h | h
      · rw [h] at hu
        cases hu
      · have he := h e hu
        dsimp only
        rcases matchGo p.data e.key.data with _ | m
        · rfl
        · cases m
          · rfl
          · simp [he]

theorem mem_scanStep_expired (p : String) (now : Int) (e : entry)
    (he : isExpired e.expiration now = true) :
    MemoryStorage.scanStep p now e = none := by
  unfold MemoryStorage.scanStep
  rcases matchGo p.data e.key.data with _ | m
  · rfl
  · cases m
    · rfl
    · simp [he]

theorem scanStep_middle (pre post : List (String × List Char)) (f : String)
    (b : List Char) (k' : String) (hne : k' ≠ f) (p : String) (now : Int) :
    LocalStorage.scanStep ⟨pre ++ (f, b) :: post⟩ p now k'
      = LocalStorage.scanStep ⟨pre ++ post⟩ p now k' := by
  unfold LocalStorage.scanStep LocalStorage.getStorageData
  rw [findFile_middle pre post f k' b hne]

theorem local_getPattern_skip (pre post : List (String × List Char)) (f : String)
    (b : List Char) (p : String) (now : Int)
    (hstep : LocalStorage.scanStep ⟨pre ++ (f, b) :: post⟩ p now f = none)
    (hpre : f ∉ pre.map Prod.fst) (hpost : f ∉ post.map Prod.fst) :
    LocalStorage.GetPattern ⟨pre ++ (f, b) :: post⟩ p now
      = LocalStorage.GetPattern ⟨pre ++ post⟩ p now := by
  rw [local_getPattern_eq, local_getPattern_eq]
  have hkeys : ((⟨pre ++ (f, b) :: post⟩ : LocalStorage).files.map Prod.fst)
      = pre.map Prod.fst ++ f :: post.map Prod.fst := by
    simp
  have hkeys2 : ((⟨pre ++ post⟩ : LocalStorage).files.map Prod.fst)
      = pre.map Prod.fst ++ post.map Prod.fst := by
    simp
  rw [hkeys, hkeys2, List.filterMap_append, List.filterMap_append,
    List.filterMap_cons_none hstep]
  have hcpre : (pre.map Prod.fst).filterMap
        (LocalStorage.scanStep ⟨pre ++ (f, b) :: post⟩ p now)
      = (pre.map Prod.fst).filterMap (LocalStorage.scanStep ⟨pre ++ post⟩ p now) := by
    apply List.filterMap_congr
    intro k' hk'
    exact scanStep_middle pre post f b k' (fun he => hpre (he ▸ hk')) p now
  have hcpost : (post.map Prod.fst).filterMap
        (LocalStorage.scanStep ⟨pre ++ (f, b) :: post⟩ p now)
      = (post.map Prod.fst).filterMap (LocalStorage.scanStep ⟨pre ++ post⟩ p now) := by
    apply List.filterMap_congr
    intro k' hk'
    exact scanStep_middle pre post f b k' (fun he => hpost (he ▸ hk')) p now
  rw [hcpre, hcpost]

theorem mem_getPattern_skip (pre post : List (String × entry)) (k : String) (e : entry)
    (p : String) (now : Int)
    (hstep : MemoryStorage.scanStep p now e = none) :
    MemoryStorage.GetPattern ⟨pre ++ (k, e) :: post⟩ p now
      = MemoryStorage.GetPattern ⟨pre ++ post⟩ p now := by
  rw [mem_getPattern_eq, mem_getPattern_eq]
  simp only [List.filterMap_append, List.filterMap_cons]
  rw [hstep]

/-! ## Lemmas: the glob matcher -/

theorem getEsc_some : ∀ {l : List Char} {r : Char} {l' : List Char},
    getEsc l = some (r, l') → l'.length < l.length ∧ l' ≠ [] := by
  intro l r l' h
  match l with
  | [] => simp [getEsc] at h
  | c :: p =>
    rw [getEsc.eq_def] at h
    dsimp only at h
    by_cases h1 : c = '-' ∨ c = ']'
    · rw [if_pos h1] at h
      cases h
    · rw [if_neg h1] at h
      by_cases h2 : c = '\\'
      · rw [if_pos h2] at h
        match p, h with
        | [], h => cases h
        | d :: p', h =>
          dsimp only at h
          by_cases h3 : p' = []
          · rw [if_pos h3] at h
            cases h
          · rw [if_neg h3] at h
            rw [Option.some.injEq, Prod.mk.injEq] at h
            obtain ⟨rfl, rfl⟩ := h
            exact ⟨by simp only [List.length_cons]; omega, h3⟩
      · rw [if_neg h2] at h
        by_cases h3 : p = []
        · rw [if_pos h3] at h
          cases h
        · rw [if_neg h3] at h
          rw [Option.some.injEq, Prod.mk.injEq] at h
          obtain ⟨rfl, rfl⟩ := h
          exact ⟨by simp only [List.length_cons]; omega, h3⟩

theorem matchRangesF_length :
    ∀ (fuel : Nat) (r : Char) (ck : List Char) (n : Nat) (m : Bool) (a : Bool)
      (k' : List Char),
      matchRangesF fuel r ck n m = some (a, k') → k'.length ≤ ck.length := by
  intro fuel
  induction fuel with
  | zero =>
    intro r ck n m a k' h
    simp [matchRangesF] at h
  | succ fuel ih =>
    intro r ck n m a k' h
    rw [matchRangesF] at h
    split_ifs at h with h1
    · rw [Option.some.injEq, Prod.mk.injEq] at h
      obtain ⟨rfl, rfl⟩ := h
      simp [List.length_tail]
    · rcases he1 : getEsc ck with _ | ⟨lo, chunk1⟩
      · rw [he1] at h
        cases h
      · rw [he1] at h
        obtain ⟨hlt1, hne1⟩ := getEsc_some he1
        rcases chunk1 with _ | ⟨c1, chunk1'⟩
        · exact absurd rfl hne1
        · dsimp only at h
          by_cases hc1 : c1 = '-'
          · rw [if_pos hc1] at h
            rcases he2 : getEsc chunk1' with _ | ⟨hi, chunk2⟩
            · rw [he2] at h
              cases h
            · rw [he2] at h
              obtain ⟨hlt2, _⟩ := getEsc_some he2
              have := ih r chunk2 (n + 1) _ a k' h
              simp only [List.length_cons] at hlt1
              omega
          · rw [if_neg hc1] at h
            have := ih r (c1 :: chunk1') (n + 1) _ a k' h
            omega

theorem matchRangesF_fuel (len : Nat) :
    ∀ (ck : List Char), ck.length ≤ len →
      ∀ (f₁ f₂ : Nat) (r : Char) (n : Nat) (m : Bool),
        ck.length < f₁ → ck.length < f₂ →
        matchRangesF f₁ r ck n m = matchRangesF f₂ r ck n m := by
  induction len with
  | zero =>
    intro ck hck f₁ f₂ r n m h₁ h₂
    obtain ⟨g₁, rfl⟩ : ∃ g, f₁ = g + 1 := ⟨f₁ - 1, by omega⟩
    obtain ⟨g₂, rfl⟩ : ∃ g, f₂ = g + 1 := ⟨f₂ - 1, by omega⟩
    have hnil : ck = [] := by
      cases ck with
      | nil => rfl
      | cons a b => simp at hck
    subst hnil
    rw [matchRangesF, matchRangesF]
    simp [getEsc]
  | succ len ih =>
    intro ck hck f₁ f₂ r n m h₁ h₂
    obtain ⟨g₁, rfl⟩ : ∃ g, f₁ = g + 1 := ⟨f₁ - 1, by omega⟩
    obtain ⟨g₂, rfl⟩ : ∃ g, f₂ = g + 1 := ⟨f₂ - 1, by omega⟩
    rw [matchRangesF, matchRangesF]
    split_ifs with hstop
    · rfl
    · rcases he1 : getEsc ck with _ | ⟨lo, chunk1⟩
      · rfl
      · obtain ⟨hlt1, hne1⟩ := getEsc_some he1
        rcases chunk1 with _ | ⟨c1, chunk1'⟩
        · exact absurd rfl hne1
        · dsimp only
          by_cases hc1 : c1 = '-'
          · rw [if_pos hc1, if_pos hc1]
            rcases he2 : getEsc chunk1' with _ | ⟨hi, chunk2⟩
            · rfl
            · obtain ⟨hlt2, _⟩ := getEsc_some he2
              apply ih chunk2 (by simp only [List.length_cons] at hlt1; omega)
              · simp only [List.length_cons] at hlt1
                omega
              · simp only [List.length_cons] at hlt1
                omega
          · rw [if_neg hc1, if_neg hc1]
            apply ih (c1 :: chunk1') (by omega) <;> omega

theorem matchRanges_eq (r : Char) (ck : List Char) (n : Nat) (m : Bool) :
    matchRanges r ck n m =
      (if ck.head? = some ']' ∧ 0 < n then some (m, ck.tail)
       else
        match getEsc ck with
        | none => none
        | some (lo, chunk1) =>
          match chunk1 with
          | [] => none
          | c1 :: chunk1' =>
            if c1 = '-' then
              match getEsc chunk1' with
              | none => none
              | some (hi, chunk2) =>
                matchRanges r chunk2 (n + 1)
                  (m || (decide (lo ≤ r) && decide (r ≤ hi)))
            else
              matchRanges r (c1 :: chunk1') (n + 1)
                (m || (decide (lo ≤ r) && decide (r ≤ lo)))) := by
  unfold matchRanges
  rw [matchRangesF]
  split_ifs with hstop
  · rfl
  · rcases he1 : getEsc ck with _ | ⟨lo, chunk1⟩
    · rfl
    · obtain ⟨hlt1, hne1⟩ := getEsc_some he1
      rcases chunk1 with _ | ⟨c1, chunk1'⟩
      · exact absurd rfl hne1
      · dsimp only
        by_cases hc1 : c1 = '-'
        · rw [if_pos hc1, if_pos hc1]
          rcases he2 : getEsc chunk1' with _ | ⟨hi, chunk2⟩
          · rfl
          · obtain ⟨hlt2, _⟩ := getEsc_some he2
            apply matchRangesF_fuel chunk2.length chunk2 (le_refl _)
            · simp only [List.length_cons] at hlt1
              omega
            · omega
        · rw [if_neg hc1, if_neg hc1]
          apply matchRangesF_fuel (c1 :: chunk1').length (c1 :: chunk1') (le_refl _)
          · omega
          · omega

theorem matchRanges_indep (len : Nat) :
    ∀ (ck : List Char), ck.length ≤ len →
      ∀ (r r' : Char) (n : Nat) (m m' : Bool),
        (matchRanges r ck n m).map Prod.snd = (matchRanges r' ck n m').map Prod.snd := by
  induction len with
  | zero =>
    intro ck hck r r' n m m'
    have hnil : ck = [] := by
      cases ck with
      | nil => rfl
      | cons a b => simp at hck
    subst hnil
    rw [matchRanges_eq, matchRanges_eq]
    simp [getEsc]
  | succ len ih =>
    intro ck hck r r' n m m'
    rw [matchRanges_eq r, matchRanges_eq r']
    split_ifs with hstop
    · rfl
    · rcases he1 : getEsc ck with _ | ⟨lo, chunk1⟩
      · rfl
      · obtain ⟨hlt1, hne1⟩ := getEsc_some he1
        rcases chunk1 with _ | ⟨c1, chunk1'⟩
        · exact absurd rfl hne1
        · dsimp only
          by_cases hc1 : c1 = '-'
          · rw [if_pos hc1, if_pos hc1]
            rcases he2 : getEsc chunk1' with _ | ⟨hi, chunk2⟩
            · rfl
            · obtain ⟨hlt2, _⟩ := getEsc_some he2
              apply ih chunk2
              simp only [List.length_cons] at hlt1
              omega
          · rw [if_neg hc1, if_neg hc1]
            apply ih (c1 :: chunk1')
            omega

theorem splitChunk_append (n : Nat) : ∀ (p : List Char), p.length ≤ n →
    ∀ ir, (splitChunk ir p).1 ++ (splitChunk ir p).2 = p := by
  induction n with
  | zero =>
    intro p hp ir
    have hnil : p = [] := by
      cases p with
      | nil => rfl
      | cons a b => simp at hp
    subst hnil
    rfl
  | succ n ih =>
    intro p hp ir
    match p with
    | [] => rfl
    | c :: p' =>
      rw [splitChunk.eq_def]
      dsimp only
      by_cases h1 : c = '*' ∧ ir = false
      · rw [if_pos h1]
        rfl
      · rw [if_neg h1]
        by_cases h2 : c = '\\'
        · rw [if_pos h2]
          match p' with
          | [] => rfl
          | d :: p'' =>
            dsimp only
            have := ih p'' (by simp only [List.length_cons] at hp; omega) ir
            simp only [List.cons_append]
            rw [this]
        · rw [if_neg h2]
          dsimp only
          have := ih p' (by simp only [List.length_cons] at hp; omega)
            (if c = '[' then true else if c = ']' then false else ir)
          simp only [List.cons_append]
          rw [this]

theorem splitChunk_chunk_ne (c : Char) (p' : List Char) (hc : ¬ (c = '*')) :
    (splitChunk false (c :: p')).1 ≠ [] := by
  rw [splitChunk.eq_def]
  dsimp only
  rw [if_neg (by intro h; exact hc h.1)]
  by_cases h2 : c = '\\'
  · rw [if_pos h2]
    match p' with
    | [] => simp
    | d :: p'' => simp
  · rw [if_neg h2]
    simp

theorem dropStars_suffix : ∀ (p : List Char),
    (dropStars p).2.length ≤ p.length
    ∧ (∀ c p', (dropStars p).2 = c :: p' → ¬ (c = '*'))
    ∧ (((dropStars p).2.length = p.length) → (dropStars p).2 = p) := by
  intro p
  induction p with
  | nil => exact ⟨by simp [dropStars], by simp [dropStars], by simp [dropStars]⟩
  | cons c p ih =>
    by_cases hc : c = '*'
    · refine ⟨?_, ?_, ?_⟩
      · simp only [dropStars, if_pos hc]
        have := ih.1
        simp only [List.length_cons]
        omega
      · intro c0 p0 h
        simp only [dropStars, if_pos hc] at h
        exact ih.2.1 c0 p0 h
      · intro h
        simp only [dropStars, if_pos hc] at h ⊢
        have := ih.1
        simp only [List.length_cons] at h
        omega
    · refine ⟨?_, ?_, ?_⟩
      · simp [dropStars, if_neg hc]
      · intro c0 p0 h
        simp only [dropStars, if_neg hc] at h
        rw [List.cons.injEq] at h
        rw [← h.1]
        exact hc
      · intro _
        simp [dropStars, if_neg hc]

theorem scanChunk_rest_lt (p : List Char) (hp : p ≠ []) :
    (scanChunk p).2.2.length < p.length := by
  unfold scanChunk
  dsimp only
  obtain ⟨hlen, hhead, heq⟩ := dropStars_suffix p
  rcases hq : (dropStars p).2 with _ | ⟨c, q'⟩
  · have : (splitChunk false []).2.length = 0 := by rfl
    rw [this]
    cases p with
    | nil => exact absurd rfl hp
    | cons a b => simp
  · have hchunk := splitChunk_chunk_ne c q' (hhead c q' hq)
    have happ := splitChunk_append (c :: q').length (c :: q') (le_refl _) false
    have hlen2 : (splitChunk false (c :: q')).1.length
        + (splitChunk false (c :: q')).2.length = (c :: q').length := by
      rw [← List.length_append, happ]
    have hpos : 0 < (splitChunk false (c :: q')).1.length := by
      cases hch : (splitChunk false (c :: q')).1 with
      | nil => exact absurd hch hchunk
      | cons a b => simp
    rw [hq] at hlen
    omega

theorem scanChunk_chunk_nil (p : List Char) (h : (scanChunk p).2.1 = []) :
    (scanChunk p).2.2 = [] := by
  unfold scanChunk at *
  dsimp only at h ⊢
  obtain ⟨hlen, hhead, _⟩ := dropStars_suffix p
  rcases hq : (dropStars p).2 with _ | ⟨c, q'⟩
  · rfl
  · rw [hq] at h
    exact absurd h (splitChunk_chunk_ne c q' (hhead c q' hq))

theorem matchChunkAux_nil (s : List Char) (fl : Bool) :
    matchChunkAux [] s fl = (if fl then some ([], false) else some (s, true)) := by
  rfl

theorem matchChunkAuxF_succ (g : Nat) (chunk s : List Char) (failed0 : Bool) :
    matchChunkAuxF (g + 1) chunk s failed0 =
      (match chunk with
       | [] => if failed0 then some ([], false) else some (s, true)
       | c :: ck =>
         let failed := failed0 || s.isEmpty
         if c = '[' then
           let r : Char := if failed then Char.ofNat 0 else s.headD (Char.ofNat 0)
           let s1 : List Char := if failed then s else s.tail
           let negated : Bool := decide (ck.head? = some '^')
           let ck1 := if negated then ck.tail else ck
           match matchRanges r ck1 0 false with
           | none => none
           | some (m, ck2) => matchChunkAuxF g ck2 s1 (failed || (m == negated))
         else if c = '?' then
           if failed then matchChunkAuxF g ck s failed
           else matchChunkAuxF g ck s.tail (decide (s.headD (Char.ofNat 0) = Separator))
         else if c = '\\' then
           match ck with
           | [] => none
           | d :: ck' =>
             if failed then matchChunkAuxF g ck' s failed
             else
               match s with
               | [] => none
               | c0 :: s' => matchChunkAuxF g ck' s' (!(d == c0))
         else
           if failed then matchChunkAuxF g ck s failed
           else
             match s with
             | [] => none
             | c0 :: s' => matchChunkAuxF g ck s' (!(c == c0))) := by
  rfl

theorem matchChunkAuxF_none_indep (fuel : Nat) :
    ∀ (ck : List Char), ck.length < fuel →
      ∀ (s s' : List Char) (fl fl' : Bool),
        (matchChunkAuxF fuel ck s fl = none ↔ matchChunkAuxF fuel ck s' fl' = none) := by
  induction fuel with
  | zero =>
    intro ck hck
    omega
  | succ g ih =>
    intro ck hck s s' fl fl'
    match ck with
    | [] =>
      rw [matchChunkAuxF_succ, matchChunkAuxF_succ]
      cases fl <;> cases fl' <;> simp
    | c :: ck' =>
      have hck' : ck'.length < g := by
        simp only [List.length_cons] at hck
        omega
      rw [matchChunkAuxF_succ, matchChunkAuxF_succ]
      dsimp only
      by_cases hbr : c = '['
      · rw [if_pos hbr, if_pos hbr]
        have hck1 : (if decide (ck'.head? = some '^') = true then ck'.tail else ck').length
            ≤ ck'.length := by
          split_ifs
          · simp [List.length_tail]
          · exact le_refl _
        have hind := matchRanges_indep
          (if decide (ck'.head? = some '^') = true then ck'.tail else ck').length
          (if decide (ck'.head? = some '^') = true then ck'.tail else ck') (le_refl _)
          (if (fl || s.isEmpty) = true then Char.ofNat 0 else s.headD (Char.ofNat 0))
          (if (fl' || s'.isEmpty) = true then Char.ofNat 0 else s'.headD (Char.ofNat 0))
          0 false false
        rcases hm1 : matchRanges
            (if (fl || s.isEmpty) = true then Char.ofNat 0 else s.headD (Char.ofNat 0))
            (if decide (ck'.head? = some '^') = true then ck'.tail else ck') 0 false
          with _ | ⟨m, ck2⟩
          <;> rcases hm2 : matchRanges
            (if (fl' || s'.isEmpty) = true then Char.ofNat 0 else s'.headD (Char.ofNat 0))
            (if decide (ck'.head? = some '^') = true then ck'.tail else ck') 0 false
          with _ | ⟨m', ck2'⟩
        · simp
        · rw [hm1, hm2] at hind
          simp at hind
        · rw [hm1, hm2] at hind
          simp at hind
        · rw [hm1, hm2] at hind
          simp only [Option.map_some', Option.some.injEq] at hind
          have hck2 : ck2'.length ≤ ck'.length := by
            have := matchRangesF_length _ _ _ _ _ _ _ hm2
            omega
          have hck2' : ck2.length ≤ ck'.length := by
            have := matchRangesF_length _ _ _ _ _ _ _ hm1
            omega
          rw [show ck2 = ck2' from hind]
          exact ih ck2' (by omega) _ _ _ _
      · rw [if_neg hbr, if_neg hbr]
        by_cases hq : c = '?'
        · rw [if_pos hq, if_pos hq]
          have h := ih ck' hck'
          split_ifs <;> exact h _ _ _ _
        · rw [if_neg hq, if_neg hq]
          by_cases hbs : c = '\\'
          · rw [if_pos hbs, if_pos hbs]
            match ck' with
            | [] => simp
            | d :: ck'' =>
              have hck'' : ck''.length < g := by
                simp only [List.length_cons] at hck'
                omega
              have h := ih ck'' (by omega)
              dsimp only
              by_cases hf1 : (fl || s.isEmpty) = true
              · rw [if_pos hf1]
                by_cases hf2 : (fl' || s'.isEmpty) = true
                · rw [if_pos hf2]
                  exact h _ _ _ _
                · rw [if_neg hf2]
                  have hs' : s' ≠ [] := by
                    intro hnil
                    rw [hnil] at hf2
                    simp at hf2
                  match s' with
                  | [] => exact absurd rfl hs'
                  | c0 :: s'' =>
                    dsimp only
                    exact h _ _ _ _
              · rw [if_neg hf1]
                have hs : s ≠ [] := by
                  intro hnil
                  rw [hnil] at hf1
                  simp at hf1
                match s with
                | [] => exact absurd rfl hs
                | c0 :: s0 =>
                  dsimp only
                  by_cases hf2 : (fl' || s'.isEmpty) = true
                  · rw [if_pos hf2]
                    exact h _ _ _ _
                  · rw [if_neg hf2]
                    have hs' : s' ≠ [] := by
                      intro hnil
                      rw [hnil] at hf2
                      simp at hf2
                    match s' with
                    | [] => exact absurd rfl hs'
                    | c0' :: s1 =>
                      dsimp only
                      exact h _ _ _ _
          · rw [if_neg hbs, if_neg hbs]
            have h := ih ck' hck'
            by_cases hf1 : (fl || s.isEmpty) = true
            · rw [if_pos hf1]
              by_cases hf2 : (fl' || s'.isEmpty) = true
              · rw [if_pos hf2]
                exact h _ _ _ _
              · rw [if_neg hf2]
                have hs' : s' ≠ [] := by
                  intro hnil
                  rw [hnil] at hf2
                  simp at hf2
                match s' with
                | [] => exact absurd rfl hs'
                | c0 :: s'' =>
                  dsimp only
                  exact h _ _ _ _
            · rw [if_neg hf1]
              have hs : s ≠ [] := by
                intro hnil
                rw [hnil] at hf1
                simp at hf1
              match s with
              | [] => exact absurd rfl hs
              | c0 :: s0 =>
                dsimp only
                by_cases hf2 : (fl' || s'.isEmpty) = true
                · rw [if_pos hf2]
                  exact h _ _ _ _
                · rw [if_neg hf2]
                  have hs' : s' ≠ [] := by
                    intro hnil
                    rw [hnil] at hf2
                    simp at hf2
                  match s' with
                  | [] => exact absurd rfl hs'
                  | c0' :: s1 =>
                    dsimp only
                    exact h _ _ _ _

theorem matchChunkAux_none_indep (ck : List Char) (s s' : List Char) (fl fl' : Bool) :
    (matchChunkAux ck s fl = none ↔ matchChunkAux ck s' fl' = none) :=
  matchChunkAuxF_none_indep (ck.length + 1) ck (by omega) s s' fl fl'

theorem validChunksF_nil_succ (g : Nat) : validChunksF (g + 1) [] = true := rfl

theorem validChunksF_cons_succ (g : Nat) (c : Char) (p' : List Char) :
    validChunksF (g + 1) (c :: p') =
      (match matchChunk (scanChunk (c :: p')).2.1 [] with
       | none => false
       | some _ => validChunksF g (scanChunk (c :: p')).2.2) := rfl

theorem validChunksF_fuel (len : Nat) : ∀ (p : List Char), p.length ≤ len →
    ∀ f₁ f₂, p.length < f₁ → p.length < f₂ → validChunksF f₁ p = validChunksF f₂ p := by
  induction len with
  | zero =>
    intro p hp f₁ f₂ h₁ h₂
    obtain ⟨g₁, rfl⟩ : ∃ g, f₁ = g + 1 := ⟨f₁ - 1, by omega⟩
    obtain ⟨g₂, rfl⟩ : ∃ g, f₂ = g + 1 := ⟨f₂ - 1, by omega⟩
    have hnil : p = [] := by
      cases p with
      | nil => rfl
      | cons a b => simp at hp
    subst hnil
    rfl
  | succ len ih =>
    intro p hp f₁ f₂ h₁ h₂
    obtain ⟨g₁, rfl⟩ : ∃ g, f₁ = g + 1 := ⟨f₁ - 1, by omega⟩
    obtain ⟨g₂, rfl⟩ : ∃ g, f₂ = g + 1 := ⟨f₂ - 1, by omega⟩
    match p with
    | [] => rfl
    | c :: p' =>
      rw [validChunksF_cons_succ, validChunksF_cons_succ]
      rcases matchChunk (scanChunk (c :: p')).2.1 [] with _ | x
      · rfl
      · have hrest := scanChunk_rest_lt (c :: p') (by simp)
        apply ih (scanChunk (c :: p')).2.2
        · simp only [List.length_cons] at hp hrest ⊢
          omega
        · simp only [List.length_cons] at h₁ hrest ⊢
          omega
        · simp only [List.length_cons] at h₂ hrest ⊢
          omega

theorem validChunks_cons (c : Char) (p' : List Char) :
    validChunks (c :: p') =
      (match matchChunk (scanChunk (c :: p')).2.1 [] with
       | none => false
       | some _ => validChunks (scanChunk (c :: p')).2.2) := by
  unfold validChunks
  rw [validChunksF_cons_succ]
  rcases matchChunk (scanChunk (c :: p')).2.1 [] with _ | x
  · rfl
  · have hrest := scanChunk_rest_lt (c :: p') (by simp)
    apply validChunksF_fuel (scanChunk (c :: p')).2.2.length _ (le_refl _)
    · simp only [List.length_cons] at hrest ⊢
      omega
    · omega

theorem matchGoAuxF_cons (g : Nat) (c : Char) (p' name : List Char) :
    matchGoAuxF (g + 1) (c :: p') name =
      (let q := scanChunk (c :: p')
       let star := q.1
       let chunk := q.2.1
       let rest := q.2.2
       if star ∧ chunk = [] then some (!(name.contains '/'))
       else
        match matchChunk chunk name with
        | none => none
        | some (t, ok) =>
          if ok ∧ (t = [] ∨ rest ≠ []) then matchGoAuxF g rest t
          else
            match (if star then starLoop chunk rest name else StarRes.nomatch) with
            | StarRes.err => none
            | StarRes.found t' => matchGoAuxF g rest t'
            | StarRes.nomatch => if validChunks rest then some false else none) := rfl

theorem matchGoAuxF_invalid : ∀ (fuel : Nat) (pattern : List Char),
    pattern.length < fuel → validChunks pattern = false →
    ∀ name, matchGoAuxF fuel pattern name ≠ some true := by
  intro fuel
  induction fuel with
  | zero =>
    intro pattern h
    omega
  | succ g ih =>
    intro pattern hlen hbad name
    match pattern with
    | [] =>
      rw [show validChunks ([] : List Char) = true from rfl] at hbad
      cases hbad
    | c :: p' =>
      rw [validChunks_cons] at hbad
      rw [matchGoAuxF_cons]
      dsimp only
      have hrest_lt := scanChunk_rest_lt (c :: p') (by simp)
      have hchunk_nil := scanChunk_chunk_nil (c :: p')
      rcases hsc : scanChunk (c :: p') with ⟨star, q2⟩
      rcases q2 with ⟨chunk, rest⟩
      rw [hsc] at hbad
      rw [hsc] at hrest_lt hchunk_nil
      dsimp only at hbad hrest_lt hchunk_nil ⊢
      rcases hmc0 : matchChunk chunk [] with _ | x0
      · -- the current chunk itself is malformed
        rw [hmc0] at hbad
        by_cases hsc1 : star ∧ chunk = []
        · exfalso
          rw [hsc1.2] at hmc0
          rw [show matchChunk [] [] = some ([], true) from rfl] at hmc0
          cases hmc0
        · rw [if_neg hsc1]
          rcases hmc : matchChunk chunk name with _ | tok
          · simp
          · exfalso
            have hiff := matchChunkAux_none_indep chunk name [] false false
            rw [show matchChunk chunk name = matchChunkAux chunk name false from rfl] at hmc
            rw [show matchChunk chunk [] = matchChunkAux chunk [] false from rfl] at hmc0
            rw [hmc0] at hiff
            rw [hiff.mpr rfl] at hmc
            cases hmc
      · -- the current chunk is fine but the remainder is invalid
        rw [hmc0] at hbad
        dsimp only at hbad
        have hrest_bad : validChunks rest = false := hbad
        by_cases hsc1 : star ∧ chunk = []
        · exfalso
          have := hchunk_nil hsc1.2
          rw [this] at hrest_bad
          rw [show validChunks ([] : List Char) = true from rfl] at hrest_bad
          cases hrest_bad
        · rw [if_neg hsc1]
          rcases hmc : matchChunk chunk name with _ | ⟨t, ok⟩
          · simp
          · dsimp only
            have hg : rest.length < g := by
              simp only [List.length_cons] at hlen hrest_lt
              omega
            by_cases hok : ok = true ∧ (t = [] ∨ rest ≠ [])
            · rw [if_pos hok]
              exact ih rest hg hrest_bad t
            · rw [if_neg hok]
              by_cases hstar : star = true
              · rw [if_pos hstar]
                rcases starLoop chunk rest name with _ | t' | _
                · simp
                · exact ih rest hg hrest_bad t'
                · rw [hrest_bad]
                  simp
              · rw [if_neg hstar]
                rw [hrest_bad]
                simp

theorem matchGo_invalid (p : List Char) (hbad : validChunks p = false) (name : List Char) :
    matchGo p name ≠ some true :=
  matchGoAuxF_invalid (p.length + 1) p (by omega) hbad name

/-! ## Claim C2 -/

/-- Claim C2: an entry with `expiration > 0` and `now > expiration` is
treated as absent by every read path on both backends — `Get` reports
the not-found error, and `GetPattern` omits the entry from its result
even though it still physically exists in the backing store. -/
theorem claim2_expired_invisible :
    (∀ (st : LocalStorage) (k : String) (now : Int) (b : List Char) (e : entry),
        findFile st.files (md5Hash k) = some b →
        unmarshalEntry b = some e →
        isExpired e.expiration now = true →
        LocalStorage.Get st k now = ([], some StorageErr.notExists))
  ∧ (∀ (ms : MemoryStorage) (k : String) (now : Int) (e : entry),
        lookupMem ms.data k = some e →
        isExpired e.expiration now = true →
        MemoryStorage.Get ms k now = ([], some StorageErr.notExists))
  ∧ (∀ (pre post : List (String × List Char)) (f : String) (b : List Char) (e : entry)
        (p : String) (now : Int),
        unmarshalEntry b = some e →
        isExpired e.expiration now = true →
        f ∉ pre.map Prod.fst →
        f ∉ post.map Prod.fst →
        LocalStorage.GetPattern ⟨pre ++ (f, b) :: post⟩ p now
          = LocalStorage.GetPattern ⟨pre ++ post⟩ p now)
  ∧ (∀ (pre post : List (String × entry)) (k : String) (e : entry) (p : String) (now : Int),
        isExpired e.expiration now = true →
        MemoryStorage.GetPattern ⟨pre ++ (k, e) :: post⟩ p now
          = MemoryStorage.GetPattern ⟨pre ++ post⟩ p now) := by
  refine ⟨?_, ?_, ?_, ?_⟩
  · intro st k now b e hfind hdec he
    unfold LocalStorage.Get LocalStorage.getStorageData
    rw [hfind]
    dsimp only
    have hl : ¬ (b.length = 0) := by
      intro h0
      rw [List.length_eq_zero] at h0
      rw [h0] at hdec
      rw [show unmarshalEntry [] = none from by decide] at hdec
      cases hdec
    rw [if_neg hl, hdec]
    simp [he]
  · intro ms k now e hfind he
    unfold MemoryStorage.Get
    rw [hfind]
    simp [he]
  · intro pre post f b e p now hdec he hpre hpost
    apply local_getPattern_skip pre post f b p now ?_ hpre hpost
    apply local_scanStep_none _ _ _ _ b
    · rw [findFile_skip pre _ f hpre]
      simp [findFile]
    · right
      intro e' he'
      rw [hdec] at he'
      cases he'
      exact he
  · intro pre post k e p now he
    exact mem_getPattern_skip pre post k e p now (mem_scanStep_expired p now e he)

/-- Witness for C2: a concrete entry with expiration 5 read at time 10
is invisible to `Get` and `GetPattern` on both backends. -/
theorem claim2_witness :
    LocalStorage.Get ⟨[(md5Hash "k", marshalEntry ⟨"k", "v", 5⟩)]⟩ "k" 10
        = ([], some StorageErr.notExists)
    ∧ MemoryStorage.Get ⟨[("k", ⟨"k", "v", 5⟩)]⟩ "k" 10
        = ([], some StorageErr.notExists)
    ∧ LocalStorage.GetPattern ⟨[(md5Hash "k", marshalEntry ⟨"k", "v", 5⟩)]⟩ "*" 10
        = LocalStorage.GetPattern ⟨[]⟩ "*" 10
    ∧ MemoryStorage.GetPattern ⟨[("k", ⟨"k", "v", 5⟩)]⟩ "*" 10
        = MemoryStorage.GetPattern ⟨[]⟩ "*" 10 :=
  ⟨claim2_expired_invisible.1 _ "k" 10 (marshalEntry ⟨"k", "v", 5⟩) ⟨"k", "v", 5⟩
     (by decide) (by decide) (by decide),
   claim2_expired_invisible.2.1 _ "k" 10 ⟨"k", "v", 5⟩ (by decide) (by decide),
   claim2_expired_invisible.2.2.1 [] [] (md5Hash "k") (marshalEntry ⟨"k", "v", 5⟩)
     ⟨"k", "v", 5⟩ "*" 10 (by decide) (by decide) (by decide) (by decide),
   claim2_expired_invisible.2.2.2 [] [] "k" ⟨"k", "v", 5⟩ "*" 10 (by decide)⟩

/-! ## Claim C4 (corrected) -/

/-- Counterexample to claim C4 as stated: the bytes `xyz` cannot be
decoded into an entry, yet a single-key `Get` does not report the
not-found condition — it surfaces the decode error, for which
`IsNotExist` is false. -/
theorem claim4_counterexample :
    unmarshalEntry ('x' :: 'y' :: 'z' :: []) = none
    ∧ (LocalStorage.Get ⟨[(md5Hash "k", 'x' :: 'y' :: 'z' :: [])]⟩ "k" 0).2
        = some StorageErr.decodeErr
    ∧ IsNotExist (LocalStorage.Get ⟨[(md5Hash "k", 'x' :: 'y' :: 'z' :: [])]⟩ "k" 0).2
        = false := by
  decide

/-- Claim C4 as amended: on a single-key `Get`, undecodable stored bytes
surface the decode error itself, for which `IsNotExist` is false (only a
missing or empty stored file reports not-found); on a whole-store
`GetPattern` scan the undecodable entry is skipped and the scan
continues without error. -/
theorem claim4_decode_error_surfaced :
    (∀ (st : LocalStorage) (k : String) (now : Int) (b : List Char),
        findFile st.files (md5Hash k) = some b →
        b ≠ [] →
        unmarshalEntry b = none →
        LocalStorage.Get st k now = ([], some StorageErr.decodeErr)
          ∧ IsNotExist (LocalStorage.Get st k now).2 = false)
  ∧ (∀ (st : LocalStorage) (k : String) (now : Int),
        findFile st.files (md5Hash k) = some [] →
        LocalStorage.Get st k now = ([], some StorageErr.notExists))
  ∧ (∀ (pre post : List (String × List Char)) (f : String) (b : List Char)
        (p : String) (now : Int),
        unmarshalEntry b = none →
        f ∉ pre.map Prod.fst →
        f ∉ post.map Prod.fst →
        LocalStorage.GetPattern ⟨pre ++ (f, b) :: post⟩ p now
          = LocalStorage.GetPattern ⟨pre ++ post⟩ p now
          ∧ (LocalStorage.GetPattern ⟨pre ++ (f, b) :: post⟩ p now).2 = none) := by
  refine ⟨?_, ?_, ?_⟩
  · intro st k now b hfind hb hdec
    have hget : LocalStorage.Get st k now = ([], some StorageErr.decodeErr) := by
      unfold LocalStorage.Get LocalStorage.getStorageData
      rw [hfind]
      dsimp only
      have hl : ¬ (b.length = 0) := by
        intro h0
        rw [List.length_eq_zero] at h0
        exact hb h0
      rw [if_neg hl, hdec]
    exact ⟨hget, by rw [hget]; decide⟩
  · intro st k now hfind
    unfold LocalStorage.Get LocalStorage.getStorageData
    rw [hfind]
    simp
  · intro pre post f b p now hdec hpre hpost
    constructor
    · apply local_getPattern_skip pre post f b p now ?_ hpre hpost
      apply local_scanStep_none _ _ _ _ b
      · rw [findFile_skip pre _ f hpre]
        simp [findFile]
      · exact Or.inl hdec
    · rw [local_getPattern_eq]

/-- Witness for the amended C4 at concrete inputs. -/
theorem claim4_witness :
    (LocalStorage.Get ⟨[(md5Hash "k", 'z' :: [])]⟩ "k" 3
        = ([], some StorageErr.decodeErr))
    ∧ LocalStorage.GetPattern ⟨[(md5Hash "k", 'z' :: [])]⟩ "*" 3
        = LocalStorage.GetPattern ⟨[]⟩ "*" 3 :=
  ⟨(claim4_decode_error_surfaced.1 _ "k" 3 ('z' :: []) (by decide) (by decide) (by decide)).1,
   (claim4_decode_error_surfaced.2.2 [] [] (md5Hash "k") ('z' :: []) "*" 3
     (by decide) (by decide) (by decide)).1⟩

/-! ## Claim C5 (corrected) -/

/-- Counterexample to claim C5 as stated: deleting a key whose entry
still physically exists but is already expired (expiration 5, current
time 10) succeeds with a nil error on both backends — it does not report
the claimed not-found error. -/
theorem claim5_counterexample :
    isExpired 5 10 = true
    ∧ (MemoryStorage.Delete ⟨[("k", ⟨"k", "v", 5⟩)]⟩ "k").2 = none
    ∧ (MemoryStorage.Delete ⟨[("k", ⟨"k", "v", 5⟩)]⟩ "k").2 ≠ some StorageErr.notExists
    ∧ (LocalStorage.Delete ⟨[(md5Hash "k", marshalEntry ⟨"k", "v", 5⟩)]⟩ "k").2 = none := by
  decide

/-- Claim C5 as amended: `Delete` reports the not-found error exactly
when its target does not physically exist (no file under the hashed key;
no table entry); expiration is never consulted, so an existing but
expired entry is removed with no error. -/
theorem claim5_delete_ignores_expiration :
    (∀ (st : LocalStorage) (k : String),
        ((LocalStorage.Delete st k).2 = some StorageErr.notExists
          ↔ findFile st.files (md5Hash k) = none)
      ∧ (∀ b, findFile st.files (md5Hash k) = some b →
          LocalStorage.Delete st k = (⟨removeFile st.files (md5Hash k)⟩, none)))
  ∧ (∀ (ms : MemoryStorage) (k : String),
        ((MemoryStorage.Delete ms k).2 = some StorageErr.notExists
          ↔ lookupMem ms.data k = none)
      ∧ (∀ e, lookupMem ms.data k = some e →
          MemoryStorage.Delete ms k = (⟨eraseMem ms.data k⟩, none))) := by
  constructor
  · intro st k
    unfold LocalStorage.Delete LocalStorage.deleteStorage
    rcases h : findFile st.files (md5Hash k) with _ | b
    · exact ⟨by simp, fun b hb => Option.noConfusion hb⟩
    · exact ⟨by simp [h], fun b' hb => rfl⟩
  · intro ms k
    unfold MemoryStorage.Delete
    rcases h : lookupMem ms.data k with _ | e
    · exact ⟨by simp, fun e he => Option.noConfusion he⟩
    · exact ⟨by simp [h], fun e' he => rfl⟩

/-- Witness for the amended C5 at concrete inputs: deletion of a
present-but-expired entry removes it with no error; deletion of a
missing key reports not-found. -/
theorem claim5_witness :
    MemoryStorage.Delete ⟨[("k", ⟨"k", "v", 5⟩)]⟩ "k"
        = (⟨eraseMem [("k", ⟨"k", "v", 5⟩)] "k"⟩, none)
    ∧ ((MemoryStorage.Delete ⟨[]⟩ "q").2 = some StorageErr.notExists
        ↔ lookupMem ([] : List (String × entry)) "q" = none) :=
  ⟨(claim5_delete_ignores_expiration.2 ⟨[("k", ⟨"k", "v", 5⟩)]⟩ "k").2
      ⟨"k", "v", 5⟩ (by decide),
   (claim5_delete_ignores_expiration.2 ⟨[]⟩ "q").1⟩

/-! ## Claim C8 (corrected) -/

/-- Counterexample to claim C8 as stated: a `Put` with the negative
non-sentinel duration -2 at time 10 returns a nil error, but the entry
is not visible to an immediately subsequent `Get` — its absolute
expiration 8 is already in the past. -/
theorem claim8_counterexample :
    (MemoryStorage.Put ⟨[]⟩ "k" "v" (-2) 10).2 = none
    ∧ MemoryStorage.Get (MemoryStorage.Put ⟨[]⟩ "k" "v" (-2) 10).1 "k" 10
        = ([], some StorageErr.notExists)
    ∧ MemoryStorage.Get (MemoryStorage.Put ⟨[]⟩ "k" "v" (-2) 10).1 "k" 10
        ≠ (("v" : String).data, none) := by
  decide

/-- Claim C8 as amended: `Put` on the in-memory backend always returns a
nil error and synchronously stores the entry in the table; the entry is
visible to a subsequent `Get` whenever its computed absolute expiration
has not already passed — in particular an immediate `Get` (at the write
time) sees it for the no-expiration sentinel and for every `d ≥ 0`, while
a negative non-sentinel duration can make it invisible at once. -/
theorem claim8_put_nil_error (ms : MemoryStorage) (k v : String) (d t now : Int) :
    (MemoryStorage.Put ms k v d t).2 = none
    ∧ lookupMem (MemoryStorage.Put ms k v d t).1.data k
        = some ⟨k, v, if d ≠ NoExpiration then t + d else 0⟩
    ∧ (isExpired (if d ≠ NoExpiration then t + d else 0) now = false →
        MemoryStorage.Get (MemoryStorage.Put ms k v d t).1 k now = (v.data, none))
    ∧ (NoExpiration = d ∨ 0 ≤ d →
        MemoryStorage.Get (MemoryStorage.Put ms k v d t).1 k t = (v.data, none)) := by
  refine ⟨rfl, lookupMem_setMem_self _ _ _, ?_, ?_⟩
  · intro he
    rw [mem_get_put, if_neg (by rw [he]; decide)]
  · intro hd
    rw [mem_get_put, if_neg ?_]
    rcases hd with hd | hd
    · rw [if_neg (fun hne => hne hd.symm)]
      simp [isExpired]
    · by_cases hsent : d = NoExpiration
      · rw [if_neg (fun hne => hne hsent)]
        simp [isExpired]
      · rw [if_pos hsent]
        simp only [isExpired, Bool.and_eq_true, decide_eq_true_eq, not_and]
        intro
        omega

/-- Witness for the amended C8 at concrete inputs. -/
theorem claim8_witness :
    (MemoryStorage.Put ⟨[]⟩ "k" "v" 7 10).2 = none
    ∧ MemoryStorage.Get (MemoryStorage.Put ⟨[]⟩ "k" "v" 7 10).1 "k" 10
        = (("v" : String).data, none) :=
  ⟨(claim8_put_nil_error ⟨[]⟩ "k" "v" 7 10 10).1,
   (claim8_put_nil_error ⟨[]⟩ "k" "v" 7 10 10).2.2.2 (Or.inr (by decide))⟩

/-! ## Claim C10 (corrected) -/

/-- Counterexample to claim C10 as stated: `Put` with duration -100 at
write time 100 (a non-sentinel `d ≤ 0`) stores the absolute expiration
`100 + (-100) = 0`, which means "never expires" — a strictly later `Get`
returns the value instead of the claimed not-found, and a non-sentinel
duration has produced the expiration-field value 0. -/
theorem claim10_counterexample :
    ((-100 : Int) ≠ NoExpiration ∧ (-100 : Int) ≤ 0)
    ∧ LocalStorage.Get (LocalStorage.Put ⟨[]⟩ "k" "v" (-100) 100).1 "k" 101
        = (("v" : String).data, none) := by
  constructor
  · decide
  · decide

/-- Claim C10 as amended: `Put` with any `d ≠ -1` stores absolute
expiration `t + d` (and the sentinel `-1` stores 0, never expiring); a
non-sentinel `d ≤ 0` makes every strictly later `Get` report not-found
provided the computed deadline `t + d` is positive; the stored
expiration field is 0 exactly when `d` is the sentinel or `t + d = 0`,
so a non-sentinel duration equal to `-t` also produces a never-expiring
entry. -/
theorem claim10_put_expiration (st : LocalStorage) (ms : MemoryStorage)
    (k v : String) (d t now : Int) :
    (d ≠ NoExpiration →
      findFile (LocalStorage.Put st k v d t).1.files (md5Hash k)
          = some (marshalEntry ⟨k, v, t + d⟩)
        ∧ lookupMem (MemoryStorage.Put ms k v d t).1.data k = some ⟨k, v, t + d⟩)
    ∧ (d = NoExpiration →
      findFile (LocalStorage.Put st k v d t).1.files (md5Hash k)
          = some (marshalEntry ⟨k, v, 0⟩)
        ∧ lookupMem (MemoryStorage.Put ms k v d t).1.data k = some ⟨k, v, 0⟩)
    ∧ (d ≠ NoExpiration → d ≤ 0 → 0 < t + d → t < now →
        LocalStorage.Get (LocalStorage.Put st k v d t).1 k now
            = ([], some StorageErr.notExists)
        ∧ MemoryStorage.Get (MemoryStorage.Put ms k v d t).1 k now
            = ([], some StorageErr.notExists))
    ∧ ((if d ≠ NoExpiration then t + d else 0) = 0 ↔ (d = NoExpiration ∨ t + d = 0)) := by
  have hfiles : (LocalStorage.Put st k v d t).1.files =
      setFile st.files (md5Hash k)
        (marshalEntry ⟨k, v, if d ≠ NoExpiration then t + d else 0⟩) := rfl
  have hdata : (MemoryStorage.Put ms k v d t).1.data =
      setMem ms.data k ⟨k, v, if d ≠ NoExpiration then t + d else 0⟩ := rfl
  refine ⟨?_, ?_, ?_, ?_⟩
  · intro hd
    rw [hfiles, hdata]
    constructor
    · rw [show (if d ≠ NoExpiration then t + d else 0) = t + d from if_pos hd]
      exact findFile_setFile_self _ _ _
    · rw [show (if d ≠ NoExpiration then t + d else 0) = t + d from if_pos hd]
      exact lookupMem_setMem_self _ _ _
  · intro hd
    rw [hfiles, hdata]
    constructor
    · rw [show (if d ≠ NoExpiration then t + d else 0) = 0 from if_neg (fun h => h hd)]
      exact findFile_setFile_self _ _ _
    · rw [show (if d ≠ NoExpiration then t + d else 0) = 0 from if_neg (fun h => h hd)]
      exact lookupMem_setMem_self _ _ _
  · intro hd hle hpos hlt
    have he : isExpired (if d ≠ NoExpiration then t + d else 0) now = true := by
      rw [show (if d ≠ NoExpiration then t + d else 0) = t + d from if_pos hd]
      simp only [isExpired, Bool.and_eq_true, decide_eq_true_eq]
      omega
    constructor
    · rw [local_get_put, if_pos he]
    · rw [mem_get_put, if_pos he]
  · by_cases hd : d = NoExpiration
    · rw [if_neg (fun h => h hd)]
      simp [hd]
    · rw [if_pos hd]
      simp [hd]

/-- Witness for the amended C10 at concrete inputs. -/
theorem claim10_witness :
    findFile (LocalStorage.Put ⟨[]⟩ "k" "v" 5 10).1.files (md5Hash "k")
        = some (marshalEntry ⟨"k", "v", 10 + 5⟩)
    ∧ LocalStorage.Get (LocalStorage.Put ⟨[]⟩ "k" "v" (-3) 10).1 "k" 11
        = ([], some StorageErr.notExists) :=
  ⟨((claim10_put_expiration ⟨[]⟩ ⟨[]⟩ "k" "v" 5 10 11).1 (by decide)).1,
   ((claim10_put_expiration ⟨[]⟩ ⟨[]⟩ "k" "v" (-3) 10 11).2.2.1
     (by decide) (by decide) (by decide) (by decide)).1⟩

/-! ## Claim C6 -/

theorem local_scanStep_iff (st : LocalStorage) (p : String) (now : Int) (key : String)
    (line : String) :
    LocalStorage.scanStep st p now key = some line ↔
      ∃ b e, findFile st.files key = some b ∧ ¬ (b.length = 0)
        ∧ unmarshalEntry b = some e
        ∧ matchGo p.data e.key.data = some true
        ∧ isExpired e.expiration now = false
        ∧ line = entryLine e := by
  constructor
  · intro h
    unfold LocalStorage.scanStep LocalStorage.getStorageData at h
    rcases hf : findFile st.files key with _ | b
    · rw [hf] at h
      cases h
    · rw [hf] at h
      dsimp only at h
      by_cases hl : b.length = 0
      · rw [if_pos hl] at h
        cases h
      · rw [if_neg hl] at h
        rcases hu : unmarshalEntry b with _ | e
        · rw [hu] at h
          cases h
        · rw [hu] at h
          dsimp only at h
          rcases hm : matchGo p.data e.key.data with _ | m
          · rw [hm] at h
            cases h
          · rw [hm] at h
            cases m
            · cases h
            · by_cases he : isExpired e.expiration now
              · rw [show isExpired e.expiration now = true from he] at h
                simp at h
              · refine ⟨b, e, rfl, hl, hu, hm, by simpa using he, ?_⟩
                simp only [Bool.not_eq_true] at he
                rw [he] at h
                simp at h
                exact h.symm
  · rintro ⟨b, e, hf, hl, hu, hm, he, rfl⟩
    unfold LocalStorage.scanStep LocalStorage.getStorageData
    rw [hf]
    dsimp only
    rw [if_neg hl, hu]
    dsimp only
    rw [hm]
    simp [he]

theorem mem_scanStep_iff (p : String) (now : Int) (e : entry) (line : String) :
    MemoryStorage.scanStep p now e = some line ↔
      matchGo p.data e.key.data = some true
        ∧ isExpired e.expiration now = false
        ∧ line = entryLine e := by
  constructor
  · intro h
    unfold MemoryStorage.scanStep at h
    rcases hm : matchGo p.data e.key.data with _ | m
    · rw [hm] at h
      cases h
    · rw [hm] at h
      cases m
      · cases h
      · by_cases he : isExpired e.expiration now
        · rw [show isExpired e.expiration now = true from he] at h
          simp at h
        · refine ⟨rfl, by simpa using he, ?_⟩
          simp only [Bool.not_eq_true] at he
          rw [he] at h
          simp at h
          exact h.symm
  · rintro ⟨hm, he, rfl⟩
    unfold MemoryStorage.scanStep
    rw [hm]
    simp [he]

/-- Claim C6: `GetPattern` renders exactly the wire form
`[item,item,...]` with one object `\x7b"key":"value"\x7d` per matching,
non-expired (and decodable) entry, in scan order, with no error; a scan
with no contributing entry — in particular over the empty store —
returns exactly the two bytes `[]`. -/
theorem claim6_wire_format (st : LocalStorage) (ms : MemoryStorage) (p : String)
    (now : Int) :
    (LocalStorage.GetPattern st p now
      = (("[" ++ String.intercalate ","
          ((st.files.map Prod.fst).filterMap (LocalStorage.scanStep st p now)) ++ "]").data,
         none))
    ∧ (∀ key line, LocalStorage.scanStep st p now key = some line ↔
        ∃ b e, findFile st.files key = some b ∧ ¬ (b.length = 0)
          ∧ unmarshalEntry b = some e
          ∧ matchGo p.data e.key.data = some true
          ∧ isExpired e.expiration now = false
          ∧ line = entryLine e)
    ∧ ((∀ key ∈ st.files.map Prod.fst, LocalStorage.scanStep st p now key = none) →
        LocalStorage.GetPattern st p now = (("[]" : String).data, none))
    ∧ (MemoryStorage.GetPattern ms p now
      = (("[" ++ String.intercalate ","
          (ms.data.filterMap (fun kv => MemoryStorage.scanStep p now kv.2)) ++ "]").data,
         none))
    ∧ (∀ e line, MemoryStorage.scanStep p now e = some line ↔
        matchGo p.data e.key.data = some true
          ∧ isExpired e.expiration now = false
          ∧ line = entryLine e)
    ∧ ((∀ kv ∈ ms.data, MemoryStorage.scanStep p now kv.2 = none) →
        MemoryStorage.GetPattern ms p now = (("[]" : String).data, none))
    ∧ (LocalStorage.GetPattern ⟨[]⟩ p now = (("[]" : String).data, none)
        ∧ MemoryStorage.GetPattern ⟨[]⟩ p now = (("[]" : String).data, none)) := by
  refine ⟨local_getPattern_eq st p now, local_scanStep_iff st p now, ?_,
    mem_getPattern_eq ms p now, mem_scanStep_iff p now, ?_, ?_, ?_⟩
  · intro hall
    rw [local_getPattern_eq]
    rw [List.filterMap_eq_nil_iff.mpr hall]
    rfl
  · intro hall
    rw [mem_getPattern_eq]
    rw [List.filterMap_eq_nil_iff.mpr (fun kv hkv => hall kv hkv)]
    rfl
  · rw [local_getPattern_eq]
    rfl
  · rw [mem_getPattern_eq]
    rfl

/-- Witness for C6 at concrete inputs: the store of the repository's own
test (`a key`/`another key`) scanned with `another*` renders exactly one
object, and the empty store renders `[]`. -/
theorem claim6_witness :
    LocalStorage.GetPattern ⟨[]⟩ "*" 0 = (("[]" : String).data, none)
    ∧ MemoryStorage.GetPattern
        ⟨[("a key", ⟨"a key", "a value", 0⟩),
          ("another key", ⟨"another key", "another value", 0⟩)]⟩ "another*" 0
      = (("[" ++ String.intercalate ","
          ([("a key", (⟨"a key", "a value", 0⟩ : entry)),
            ("another key", ⟨"another key", "another value", 0⟩)].filterMap
            (fun kv => MemoryStorage.scanStep "another*" 0 kv.2)) ++ "]").data, none) :=
  ⟨(claim6_wire_format ⟨[]⟩ ⟨[]⟩ "*" 0).2.2.1 (fun key hk => absurd hk (by simp)),
   (claim6_wire_format ⟨[]⟩
      ⟨[("a key", ⟨"a key", "a value", 0⟩),
        ("another key", ⟨"another key", "another value", 0⟩)]⟩ "another*" 0).2.2.2.1⟩

/-! ## Claim C7 -/

theorem local_scanStep_nomatch (st : LocalStorage) (p : String) (now : Int) (key : String)
    (h : ∀ name, matchGo p.data name ≠ some true) :
    LocalStorage.scanStep st p now key = none := by
  unfold LocalStorage.scanStep LocalStorage.getStorageData
  rcases findFile st.files key with _ | b
  · rfl
  · dsimp only
    by_cases hl : b.length = 0
    · rw [if_pos hl]
    · rw [if_neg hl]
      rcases unmarshalEntry b with _ | e
      · rfl
      · dsimp only
        rcases hm : matchGo p.data e.key.data with _ | m
        · rfl
        · cases m
          · rfl
          · exact absurd hm (h e.key.data)

theorem mem_scanStep_nomatch (p : String) (now : Int) (e : entry)
    (h : ∀ name, matchGo p.data name ≠ some true) :
    MemoryStorage.scanStep p now e = none := by
  unfold MemoryStorage.scanStep
  rcases hm : matchGo p.data e.key.data with _ | m
  · rfl
  · cases m
    · rfl
    · exact absurd hm (h e.key.data)

/-- Claim C7: for every syntactically invalid pattern (one whose chunk
validation — the check `Match` itself runs before returning a
non-matching result — fails), `Match` never reports a match for any key,
so the `GetPattern` scan on either backend skips every entry rather than
aborting: it visits the whole store, returns exactly `[]`, and reports
no error. -/
theorem claim7_invalid_pattern (p : String) (st : LocalStorage) (ms : MemoryStorage)
    (now : Int) (hbad : validChunks p.data = false) :
    (∀ name, matchGo p.data name ≠ some true)
    ∧ LocalStorage.GetPattern st p now = (("[]" : String).data, none)
    ∧ MemoryStorage.GetPattern ms p now = (("[]" : String).data, none) := by
  have hnm : ∀ name, matchGo p.data name ≠ some true := matchGo_invalid p.data hbad
  refine ⟨hnm, ?_, ?_⟩
  · rw [local_getPattern_eq]
    rw [List.filterMap_eq_nil_iff.mpr
      (fun key _ => local_scanStep_nomatch st p now key hnm)]
    rfl
  · rw [mem_getPattern_eq]
    rw [List.filterMap_eq_nil_iff.mpr
      (fun kv _ => mem_scanStep_nomatch p now kv.2 hnm)]
    rfl

/-- Witness for C7: the malformed pattern `a[` (unclosed bracket
expression) over concrete nonempty stores yields `[]` with no error on
both backends. -/
theorem claim7_witness :
    (matchGo ("a[" : String).data ("ab" : String).data ≠ some true)
    ∧ LocalStorage.GetPattern ⟨[(md5Hash "k", marshalEntry ⟨"k", "v", 0⟩)]⟩ "a[" 0
        = (("[]" : String).data, none)
    ∧ MemoryStorage.GetPattern ⟨[("k", ⟨"k", "v", 0⟩)]⟩ "a[" 0
        = (("[]" : String).data, none) :=
  ⟨(claim7_invalid_pattern "a[" ⟨[(md5Hash "k", marshalEntry ⟨"k", "v", 0⟩)]⟩
      ⟨[("k", ⟨"k", "v", 0⟩)]⟩ 0 (by decide)).1 ("ab" : String).data,
   (claim7_invalid_pattern "a[" ⟨[(md5Hash "k", marshalEntry ⟨"k", "v", 0⟩)]⟩
      ⟨[("k", ⟨"k", "v", 0⟩)]⟩ 0 (by decide)).2.1,
   (claim7_invalid_pattern "a[" ⟨[(md5Hash "k", marshalEntry ⟨"k", "v", 0⟩)]⟩
      ⟨[("k", ⟨"k", "v", 0⟩)]⟩ 0 (by decide)).2.2⟩

end KVS
